import Mathlib

/-!
Shallow embedding of graph.py from the importlab repository.

A graph node is either a file (identified by its absolute path string) or a
collapsed cycle. In the source, a Cycle stores the list of edges returned by
the cycle search and derives its member list as the first endpoint of every
edge; only the member list is ever read afterwards (flatten_nodes, contains,
formatting), so the embedding stores the member list directly, together with
the root string passed to the constructor.
-/

inductive Node where
  | file (path : String)
  | cycle (nodes : List Node) (root : String)
  deriving Repr

mutual

/-- Boolean structural equality on nodes. In Python, Cycle objects compare by
identity; in the embedding we use structural equality, which coincides with
identity on every graph the program builds because each Cycle object is fresh
when it is created. -/
def Node.beq : Node → Node → Bool
  | .file p, .file q => p == q
  | .cycle ns r, .cycle ms s => r == s && Node.beqL ns ms
  | _, _ => false
termination_by structural a => a

def Node.beqL : List Node → List Node → Bool
  | [], [] => true
  | x :: xs, y :: ys => Node.beq x y && Node.beqL xs ys
  | _, _ => false
termination_by structural l => l

end

mutual

theorem Node.beq_iff : (a b : Node) → (Node.beq a b = true ↔ a = b)
  | .file p, .file q => by simp [Node.beq]
  | .file p, .cycle ms s => by simp [Node.beq]
  | .cycle ns r, .file q => by simp [Node.beq]
  | .cycle ns r, .cycle ms s => by
      simp [Node.beq, Node.beqL_iff ns ms, and_comm]
termination_by structural a => a

theorem Node.beqL_iff : (l m : List Node) → (Node.beqL l m = true ↔ l = m)
  | [], [] => by simp [Node.beqL]
  | [], x :: xs => by simp [Node.beqL]
  | x :: xs, [] => by simp [Node.beqL]
  | x :: xs, y :: ys => by
      simp [Node.beqL, Node.beq_iff x y, Node.beqL_iff xs ys]
termination_by structural l => l

end

instance : DecidableEq Node := fun a b =>
  decidable_of_iff _ (Node.beq_iff a b)

/-- The direct member list of a node: for a Cycle the recorded member
sequence (source: self.nodes), for a file the empty list. -/
def Node.members : Node → List Node
  | .file _ => []
  | .cycle ns _ => ns

/-- Membership test of Cycle.contains in the source: v in self.nodes,
a test against the direct members only. -/
def Node.memC (v c : Node) : Prop := v ∈ c.members

instance (v c : Node) : Decidable (Node.memC v c) := by
  unfold Node.memC; infer_instance

mutual

/-- Cycle.flatten_nodes from the source: walk the member sequence in order,
recursively splicing in the flattening of nested Cycle members and keeping
file members as they are. On a file node (never used by the source) it
returns the singleton, which makes the list equation uniform. -/
def Node.flatten_nodes : Node → List Node
  | .file p => [.file p]
  | .cycle ns _ => Node.flattenL ns
termination_by structural n => n

def Node.flattenL : List Node → List Node
  | [] => []
  | .file p :: t => .file p :: Node.flattenL t
  | .cycle ns r :: t => Node.flatten_nodes (.cycle ns r) ++ Node.flattenL t
termination_by structural l => l

end

mutual

/-- All members of a node, recursively: direct members, their members, and
so on. Used to state the graph invariant that the members absorbed into a
collapsed cycle are no longer present as nodes. -/
def Node.subMembers : Node → List Node
  | .file _ => []
  | .cycle ns _ => Node.subMembersL ns
termination_by structural n => n

def Node.subMembersL : List Node → List Node
  | [] => []
  | x :: t => x :: (Node.subMembers x ++ Node.subMembersL t)
termination_by structural l => l

end

/-- Whether a node is a file node, by constructor. -/
def Node.isFile : Node → Bool
  | .file _ => true
  | .cycle _ _ => false

/-- A directed graph in the style of networkx.DiGraph: a node list and an
edge list, both duplicate free by construction, with insertion order kept. -/
structure Graph where
  nodes : List Node
  edges : List (Node × Node)
  deriving DecidableEq, Repr

def Graph.empty : Graph := ⟨[], []⟩

/-- DiGraph.add_node: a no-op when the node is already present. -/
def Graph.add_node (g : Graph) (n : Node) : Graph :=
  if n ∈ g.nodes then g else { g with nodes := g.nodes ++ [n] }

/-- Helper for add_edge: insert an edge into the edge list when missing. -/
def Graph.insEdge (g : Graph) (u v : Node) : Graph :=
  if (u, v) ∈ g.edges then g else { g with edges := g.edges ++ [(u, v)] }

/-- DiGraph.add_edge: inserts the endpoints as nodes when missing, then the
edge itself when missing (duplicate insertion is a no-op). -/
def Graph.add_edge (g : Graph) (u v : Node) : Graph :=
  ((g.add_node u).add_node v).insEdge u v

/-- DiGraph.remove_edge: drops the edge from the edge list. -/
def Graph.remove_edge (g : Graph) (u v : Node) : Graph :=
  { g with edges := g.edges.filter (fun e => e ≠ (u, v)) }

/-- DiGraph.remove_node: drops the node and every edge incident to it. -/
def Graph.remove_node (g : Graph) (n : Node) : Graph :=
  { nodes := g.nodes.filter (fun x => x ≠ n),
    edges := g.edges.filter (fun e => e.1 ≠ n ∧ e.2 ≠ n) }

/-- Well-formedness: no duplicate nodes or edges, and every edge endpoint is
a node. Every graph the program builds satisfies this. -/
def Graph.WF (g : Graph) : Prop :=
  g.nodes.Nodup ∧ g.edges.Nodup ∧ ∀ e ∈ g.edges, e.1 ∈ g.nodes ∧ e.2 ∈ g.nodes

instance (g : Graph) : Decidable g.WF := by
  unfold Graph.WF; infer_instance

theorem Graph.mem_add_node_nodes (g : Graph) (n x : Node) :
    x ∈ (g.add_node n).nodes ↔ x ∈ g.nodes ∨ x = n := by
  unfold Graph.add_node
  split <;> rename_i h
  · exact ⟨Or.inl, fun hx => hx.elim id (fun hx => hx ▸ h)⟩
  · simp

theorem Graph.add_node_edges (g : Graph) (n : Node) :
    (g.add_node n).edges = g.edges := by
  unfold Graph.add_node; split <;> rfl

theorem Graph.mem_insEdge_edges (g : Graph) (u v : Node) (e : Node × Node) :
    e ∈ (g.insEdge u v).edges ↔ e ∈ g.edges ∨ e = (u, v) := by
  unfold Graph.insEdge
  split <;> rename_i h
  · exact ⟨Or.inl, fun hx => hx.elim id (fun hx => hx ▸ h)⟩
  · simp

theorem Graph.insEdge_nodes (g : Graph) (u v : Node) :
    (g.insEdge u v).nodes = g.nodes := by
  unfold Graph.insEdge; split <;> rfl

theorem Graph.mem_add_edge_edges (g : Graph) (u v : Node) (e : Node × Node) :
    e ∈ (g.add_edge u v).edges ↔ e ∈ g.edges ∨ e = (u, v) := by
  unfold Graph.add_edge
  rw [Graph.mem_insEdge_edges, Graph.add_node_edges, Graph.add_node_edges]

theorem Graph.mem_add_edge_nodes (g : Graph) (u v x : Node) :
    x ∈ (g.add_edge u v).nodes ↔ x ∈ g.nodes ∨ x = u ∨ x = v := by
  unfold Graph.add_edge
  rw [Graph.insEdge_nodes, Graph.mem_add_node_nodes, Graph.mem_add_node_nodes,
    or_assoc]

theorem Graph.mem_remove_edge_edges (g : Graph) (u v : Node) (e : Node × Node) :
    e ∈ (g.remove_edge u v).edges ↔ e ∈ g.edges ∧ e ≠ (u, v) := by
  simp [Graph.remove_edge]

theorem Graph.remove_edge_nodes (g : Graph) (u v : Node) :
    (g.remove_edge u v).nodes = g.nodes := rfl

theorem Graph.mem_remove_node_nodes (g : Graph) (n x : Node) :
    x ∈ (g.remove_node n).nodes ↔ x ∈ g.nodes ∧ x ≠ n := by
  simp [Graph.remove_node]

theorem Graph.mem_remove_node_edges (g : Graph) (n : Node) (e : Node × Node) :
    e ∈ (g.remove_node n).edges ↔ e ∈ g.edges ∧ e.1 ≠ n ∧ e.2 ≠ n := by
  simp [Graph.remove_node]

theorem Graph.WF.add_node {g : Graph} (h : g.WF) (n : Node) : (g.add_node n).WF := by
  obtain ⟨h1, h2, h3⟩ := h
  unfold Graph.add_node
  split <;> rename_i hn
  · exact ⟨h1, h2, h3⟩
  · refine ⟨?_, h2, fun e he => ?_⟩
    · simp [List.nodup_append, h1, hn]
    · have := h3 e he; simp; tauto

theorem Graph.WF.insEdge {g : Graph} (h : g.WF) {u v : Node}
    (hu : u ∈ g.nodes) (hv : v ∈ g.nodes) : (g.insEdge u v).WF := by
  obtain ⟨w1, w2, w3⟩ := h
  unfold Graph.insEdge
  split <;> rename_i he
  · exact ⟨w1, w2, w3⟩
  · refine ⟨w1, ?_, fun e hme => ?_⟩
    · simp [List.nodup_append, w2, he]
    · simp only [List.mem_append, List.mem_singleton] at hme
      rcases hme with hme | hme
      · exact w3 e hme
      · subst hme; exact ⟨hu, hv⟩

theorem Graph.WF.add_edge {g : Graph} (h : g.WF) (u v : Node) : (g.add_edge u v).WF := by
  have h2 : ((g.add_node u).add_node v).WF := (h.add_node u).add_node v
  refine h2.insEdge ?_ ?_ <;>
    simp [Graph.mem_add_node_nodes]

theorem Graph.WF.remove_edge {g : Graph} (h : g.WF) (u v : Node) :
    (g.remove_edge u v).WF := by
  obtain ⟨h1, h2, h3⟩ := h
  refine ⟨h1, h2.filter _, fun e he => ?_⟩
  rw [Graph.mem_remove_edge_edges] at he
  exact h3 e he.1

theorem Graph.WF.remove_node {g : Graph} (h : g.WF) (n : Node) :
    (g.remove_node n).WF := by
  obtain ⟨h1, h2, h3⟩ := h
  refine ⟨h1.filter _, h2.filter _, fun e he => ?_⟩
  rw [Graph.mem_remove_node_edges] at he
  obtain ⟨he, hn1, hn2⟩ := he
  have := h3 e he
  simp [Graph.mem_remove_node_nodes, this.1, this.2, hn1, hn2]

/-! ### Topological order and cycle detection

The source delegates to nx.topological_sort and nx.find_cycle. We model them
with a Kahn style peeling: repeatedly remove a node with no incoming edge.
If the peeling empties the graph, its removal order is a topological order;
otherwise every remaining node has an incoming edge and a concrete cycle is
extracted by walking predecessor edges until a node repeats. -/

/-- One Kahn step: the first node with no incoming edge, in insertion order. -/
def Graph.peelStep (g : Graph) : Option Node :=
  g.nodes.find? (fun n => g.edges.all (fun e => !(e.2 == n)))

/-- Repeated Kahn steps, with fuel: the order of removed nodes, and the
remaining graph. -/
def Graph.peel : Nat → Graph → (List Node × Graph)
  | 0, g => ([], g)
  | fuel+1, g =>
    match g.peelStep with
    | none => ([], g)
    | some n =>
      ((n :: (Graph.peel fuel (g.remove_node n)).1),
       (Graph.peel fuel (g.remove_node n)).2)

/-- The removal order attempted on the whole graph. -/
def Graph.peelOrder (g : Graph) : List Node := (Graph.peel g.nodes.length g).1

/-- The graph left over after peeling. -/
def Graph.peelRest (g : Graph) : Graph := (Graph.peel g.nodes.length g).2

/-- Model of nx.topological_sort: the peel order when the peel empties the
graph, and failure (the NetworkXUnfeasible exception) otherwise. -/
def Graph.topological_sort (g : Graph) : Option (List Node) :=
  if g.peelRest.nodes = [] then some g.peelOrder else none

theorem Graph.peelStep_some {g : Graph} {n : Node} (h : g.peelStep = some n) :
    n ∈ g.nodes ∧ ∀ e ∈ g.edges, e.2 ≠ n := by
  unfold Graph.peelStep at h
  refine ⟨List.mem_of_find?_eq_some h, ?_⟩
  have := List.find?_some h
  simp only [List.all_eq_true, Bool.not_eq_eq_eq_not, Bool.not_true,
    beq_eq_false_iff_ne] at this
  exact this

theorem Graph.peelStep_none {g : Graph} (h : g.peelStep = none) :
    ∀ n ∈ g.nodes, ∃ e ∈ g.edges, e.2 = n := by
  intro n hn
  unfold Graph.peelStep at h
  have := List.find?_eq_none.mp h n hn
  simp only [List.all_eq_true, Bool.not_eq_eq_eq_not, Bool.not_true,
    beq_eq_false_iff_ne, not_forall] at this
  obtain ⟨e, he, hne⟩ := this
  exact ⟨e, he, by simpa using hne⟩

theorem Graph.peel_rest_nodes_subset (fuel : Nat) (g : Graph) :
    (Graph.peel fuel g).2.nodes ⊆ g.nodes := by
  induction fuel generalizing g with
  | zero => exact fun x hx => hx
  | succ fuel ih =>
    unfold Graph.peel
    cases h : g.peelStep with
    | none => exact fun x hx => hx
    | some n =>
      intro x hx
      have := ih (g.remove_node n) hx
      exact ((Graph.mem_remove_node_nodes g n x).mp this).1

theorem Graph.peel_rest_edges_subset (fuel : Nat) (g : Graph) :
    (Graph.peel fuel g).2.edges ⊆ g.edges := by
  induction fuel generalizing g with
  | zero => exact fun x hx => hx
  | succ fuel ih =>
    unfold Graph.peel
    cases h : g.peelStep with
    | none => exact fun x hx => hx
    | some n =>
      intro x hx
      have := ih (g.remove_node n) hx
      exact ((Graph.mem_remove_node_edges g n x).mp this).1

theorem Graph.peel_rest_WF {fuel : Nat} {g : Graph} (h : g.WF) :
    (Graph.peel fuel g).2.WF := by
  induction fuel generalizing g with
  | zero => exact h
  | succ fuel ih =>
    unfold Graph.peel
    cases hs : g.peelStep with
    | none => exact h
    | some n => exact ih (h.remove_node n)

theorem Graph.peel_order_subset (fuel : Nat) (g : Graph) :
    (Graph.peel fuel g).1 ⊆ g.nodes := by
  induction fuel generalizing g with
  | zero => simp [Graph.peel]
  | succ fuel ih =>
    unfold Graph.peel
    cases h : g.peelStep with
    | none => simp
    | some n =>
      intro x hx
      simp only [List.mem_cons] at hx
      rcases hx with rfl | hx
      · exact (Graph.peelStep_some h).1
      · have := ih (g.remove_node n) hx
        exact ((Graph.mem_remove_node_nodes g n x).mp this).1

theorem Graph.peel_covers (fuel : Nat) (g : Graph) :
    ∀ x ∈ g.nodes, x ∈ (Graph.peel fuel g).1 ∨ x ∈ (Graph.peel fuel g).2.nodes := by
  induction fuel generalizing g with
  | zero => intro x hx; exact Or.inr hx
  | succ fuel ih =>
    unfold Graph.peel
    cases h : g.peelStep with
    | none => intro x hx; exact Or.inr hx
    | some n =>
      intro x hx
      by_cases hxn : x = n
      · subst hxn; left; simp
      · have hx2 : x ∈ (g.remove_node n).nodes := by
          rw [Graph.mem_remove_node_nodes]; exact ⟨hx, hxn⟩
        rcases ih (g.remove_node n) x hx2 with h1 | h1
        · left; simp [h1]
        · right; exact h1

theorem Graph.peel_order_nodup (fuel : Nat) (g : Graph) :
    (Graph.peel fuel g).1.Nodup := by
  induction fuel generalizing g with
  | zero => simp [Graph.peel]
  | succ fuel ih =>
    unfold Graph.peel
    cases h : g.peelStep with
    | none => simp
    | some n =>
      refine List.Nodup.cons ?_ (ih (g.remove_node n))
      intro hmem
      have := Graph.peel_order_subset fuel (g.remove_node n) hmem
      rw [Graph.mem_remove_node_nodes] at this
      exact this.2 rfl

/-- On success, every edge appears in the peel order with its source strictly
before its target: the order can be split around the two endpoints. -/
theorem Graph.peel_order_split {fuel : Nat} {g : Graph} (hwf : g.WF)
    (hdone : (Graph.peel fuel g).2.nodes = []) :
    ∀ e ∈ g.edges, ∃ l1 l2 l3,
      (Graph.peel fuel g).1 = l1 ++ e.1 :: l2 ++ e.2 :: l3 := by
  induction fuel generalizing g with
  | zero =>
    intro e he
    exact absurd (hdone ▸ (hwf.2.2 e he).1) (List.not_mem_nil e.1)
  | succ fuel ih =>
    unfold Graph.peel at hdone ⊢
    cases h : g.peelStep with
    | none =>
      rw [h] at hdone
      intro e he
      exact absurd (hdone ▸ (hwf.2.2 e he).1) (List.not_mem_nil e.1)
    | some n =>
      rw [h] at hdone
      intro e he
      have hn2 : e.2 ≠ n := (Graph.peelStep_some h).2 e he
      by_cases hn1 : e.1 = n
      · -- the peeled node is the source: the target is in the rest order
        have he2 : e.2 ∈ (g.remove_node n).nodes := by
          rw [Graph.mem_remove_node_nodes]
          exact ⟨(hwf.2.2 e he).2, hn2⟩
        have hcov := Graph.peel_covers fuel (g.remove_node n) e.2 he2
        rw [hdone] at hcov
        rcases hcov with hcov | hcov
        · obtain ⟨s, t, hst⟩ := List.append_of_mem hcov
          exact ⟨[], s, t, by simp [hn1, hst]⟩
        · exact absurd hcov (List.not_mem_nil e.2)
      · -- the edge survives into the peeled graph
        have he2 : e ∈ (g.remove_node n).edges := by
          rw [Graph.mem_remove_node_edges]
          exact ⟨he, hn1, hn2⟩
        obtain ⟨l1, l2, l3, hl⟩ := ih (hwf.remove_node n) hdone e he2
        exact ⟨n :: l1, l2, l3, by simp [hl]⟩

/-- The edge relation of a graph. -/
def Graph.edgeRel (g : Graph) (a b : Node) : Prop := (a, b) ∈ g.edges

/-- Semantic acyclicity: no node reaches itself through a nonempty chain of
edges. -/
def Graph.NoCycle (g : Graph) : Prop :=
  ∀ n, ¬ Relation.TransGen g.edgeRel n n

theorem List.indexOf_lt_of_split {l : List Node} {a b : Node}
    (hnd : l.Nodup) (l1 l2 l3 : List Node) (he : l = l1 ++ a :: l2 ++ b :: l3) :
    l.indexOf a < l.indexOf b := by
  subst he
  have hnd1 := hnd
  rw [List.nodup_append] at hnd1
  obtain ⟨h1, h2, hdisj⟩ := hnd1
  have ha2 : a ∈ l1 ++ a :: l2 := by simp
  have hb : b ∉ l1 ++ a :: l2 := fun h => hdisj h (by simp)
  have ha1 : a ∉ l1 := by
    rw [List.nodup_append] at h1
    exact fun h => h1.2.2 h (by simp)
  rw [List.indexOf_append_of_mem ha2, List.indexOf_append_of_not_mem hb,
    List.indexOf_append_of_not_mem ha1, List.indexOf_cons_self,
    List.indexOf_cons_self]
  simp only [List.length_append, List.length_cons]
  omega

theorem Graph.topological_sort_indexOf_lt {g : Graph} {ord : List Node}
    (hwf : g.WF) (h : g.topological_sort = some ord) :
    ∀ e ∈ g.edges, ord.indexOf e.1 < ord.indexOf e.2 := by
  intro e he
  unfold Graph.topological_sort at h
  split at h
  · rename_i hdone
    cases h
    obtain ⟨l1, l2, l3, hl⟩ := Graph.peel_order_split hwf hdone e he
    exact List.indexOf_lt_of_split (Graph.peel_order_nodup _ _) l1 l2 l3 hl
  · cases h

/-- Success of the modelled topological sort implies semantic acyclicity:
the position in the order increases strictly along every edge chain. -/
theorem Graph.topological_sort_NoCycle {g : Graph} {ord : List Node}
    (hwf : g.WF) (h : g.topological_sort = some ord) : g.NoCycle := by
  intro n hn
  have key : ∀ a b, Relation.TransGen g.edgeRel a b →
      ord.indexOf a < ord.indexOf b := by
    intro a b hab
    induction hab with
    | single h1 => exact Graph.topological_sort_indexOf_lt hwf h _ h1
    | tail _ h2 ih =>
      exact ih.trans (Graph.topological_sort_indexOf_lt hwf h _ h2)
  exact absurd (key n n hn) (lt_irrefl _)

theorem nodup_subset_length {α : Type} [DecidableEq α] {l L : List α}
    (hnd : l.Nodup) (hsub : l ⊆ L) : l.length ≤ L.length := by
  calc l.length = l.toFinset.card := (List.toFinset_card_of_nodup hnd).symm
    _ ≤ L.toFinset.card := by
        refine Finset.card_le_card ?_
        intro x hx
        rw [List.mem_toFinset] at hx ⊢
        exact hsub hx
    _ ≤ L.length := List.toFinset_card_le L

theorem length_filter_ne_lt {α : Type} [DecidableEq α] {l : List α} {n : α}
    (h : n ∈ l) : (l.filter (fun x => x ≠ n)).length < l.length := by
  induction l with
  | nil => cases h
  | cons a t ih =>
    by_cases han : a = n
    · subst han
      have h1 : (a :: t).filter (fun x => x ≠ a) = t.filter (fun x => x ≠ a) := by
        simp
      rw [h1]
      have := List.length_filter_le (fun x => decide (x ≠ a)) t
      simp only [List.length_cons]
      omega
    · have hnt : n ∈ t := by
        rcases List.mem_cons.mp h with h1 | h1
        · exact absurd h1.symm han
        · exact h1
      have h1 : (a :: t).filter (fun x => x ≠ n) = a :: t.filter (fun x => x ≠ n) := by
        simp [han]
      rw [h1]
      simp only [List.length_cons]
      exact Nat.succ_lt_succ (ih hnt)

/-- With fuel at least the node count, peeling runs to a fixpoint: either
the graph is emptied or no remaining node is without incoming edges. -/
theorem Graph.peel_stall {fuel : Nat} {g : Graph} (hf : g.nodes.length ≤ fuel) :
    (Graph.peel fuel g).2.nodes = [] ∨ (Graph.peel fuel g).2.peelStep = none := by
  induction fuel generalizing g with
  | zero =>
    left
    have : g.nodes.length = 0 := Nat.le_antisymm hf (Nat.zero_le _)
    simpa [Graph.peel] using List.eq_nil_of_length_eq_zero this
  | succ fuel ih =>
    unfold Graph.peel
    cases h : g.peelStep with
    | none => right; exact h
    | some n =>
      have hn : n ∈ g.nodes := (Graph.peelStep_some h).1
      have hlen : (g.remove_node n).nodes.length ≤ fuel := by
        have := length_filter_ne_lt hn
        simp only [Graph.remove_node] at *
        omega
      exact ih hlen

theorem Graph.peelRest_stall (g : Graph) :
    g.peelRest.nodes = [] ∨ g.peelRest.peelStep = none :=
  Graph.peel_stall (Nat.le_refl _)

/-- The list of edges around a cycle written as its member list: consecutive
pairs and the closing pair back to the given first node. -/
def closeWith (first : Node) : List Node → List (Node × Node)
  | [] => []
  | [a] => [(a, first)]
  | a :: b :: t => (a, b) :: closeWith first (b :: t)

/-- The edges around a member list read as a cycle: consecutive pairs plus
the pair from the last member back to the first. -/
def cycEdges : List Node → List (Node × Node)
  | [] => []
  | a :: t => closeWith a (a :: t)

/-- A genuine simple cycle of the graph: a nonempty, duplicate free member
list all of whose cycle edges are edges of the graph. This is the contract
of nx.find_cycle output after projecting each edge to its first endpoint. -/
def Graph.IsCycleOf (g : Graph) (ms : List Node) : Prop :=
  ms ≠ [] ∧ ms.Nodup ∧ ∀ e ∈ cycEdges ms, e ∈ g.edges

theorem closeWith_map_fst (first : Node) :
    ∀ l : List Node, (closeWith first l).map Prod.fst = l
  | [] => rfl
  | [a] => rfl
  | a :: b :: t => by
    simp only [closeWith, List.map_cons]
    rw [closeWith_map_fst first (b :: t)]

theorem cycEdges_map_fst (ms : List Node) : (cycEdges ms).map Prod.fst = ms := by
  cases ms with
  | nil => rfl
  | cons a t => exact closeWith_map_fst a (a :: t)

theorem mem_closeWith_endpoints {first : Node} :
    ∀ {l : List Node} {e : Node × Node}, e ∈ closeWith first l →
      e.1 ∈ l ∧ (e.2 ∈ l ∨ e.2 = first)
  | [], e, h => by cases h
  | [a], e, h => by
    simp only [closeWith, List.mem_singleton] at h
    subst h
    simp
  | a :: b :: t, e, h => by
    simp only [closeWith, List.mem_cons] at h
    rcases h with rfl | h
    · simp
    · have h2 := mem_closeWith_endpoints h
      refine ⟨List.mem_cons_of_mem a h2.1, ?_⟩
      rcases h2.2 with h3 | h3
      · exact Or.inl (List.mem_cons_of_mem a h3)
      · exact Or.inr h3

theorem mem_cycEdges_endpoints {ms : List Node} {e : Node × Node}
    (h : e ∈ cycEdges ms) : e.1 ∈ ms ∧ e.2 ∈ ms := by
  cases ms with
  | nil => cases h
  | cons a t =>
    have := mem_closeWith_endpoints h
    refine ⟨this.1, ?_⟩
    rcases this.2 with h2 | h2
    · exact h2
    · subst h2; simp

theorem cycEdges_nodup {ms : List Node} (h : ms.Nodup) : (cycEdges ms).Nodup := by
  have h2 : ((cycEdges ms).map Prod.fst).Nodup := by
    rw [cycEdges_map_fst]; exact h
  exact h2.of_map

theorem Graph.IsCycleOf.subset_nodes {g : Graph} {ms : List Node}
    (hwf : g.WF) (h : g.IsCycleOf ms) : ∀ m ∈ ms, m ∈ g.nodes := by
  intro m hm
  have hm2 : m ∈ (cycEdges ms).map Prod.fst := (cycEdges_map_fst ms).symm ▸ hm
  obtain ⟨e, he, rfl⟩ := List.mem_map.mp hm2
  exact (hwf.2.2 e (h.2.2 e he)).1

theorem dropWhile_ne_self {α : Type} [DecidableEq α] {l : List α} {a : α}
    (h : a ∈ l) : ∃ t, l.dropWhile (fun x => x ≠ a) = a :: t := by
  induction l with
  | nil => cases h
  | cons b t ih =>
    rw [List.dropWhile_cons]
    split
    · rename_i hcond
      have hba : b ≠ a := by simpa using hcond
      have hat : a ∈ t := by
        rcases List.mem_cons.mp h with h1 | h1
        · exact absurd h1.symm hba
        · exact h1
      exact ih hat
    · rename_i hcond
      have hba : b = a := by simpa using hcond
      exact ⟨t, by rw [hba]⟩

theorem closeWith_sub_edges {g : Graph} {first : Node} :
    ∀ {l : List Node}, List.Chain' (fun a b => (a, b) ∈ g.edges) l →
      (∀ x ∈ l.getLast?, (x, first) ∈ g.edges) →
      ∀ e ∈ closeWith first l, e ∈ g.edges
  | [], _, _, e, he => by cases he
  | [a], _, hl, e, he => by
    simp only [closeWith, List.mem_singleton] at he
    subst he
    exact hl a rfl
  | a :: b :: t, hc, hl, e, he => by
    simp only [closeWith, List.mem_cons] at he
    rcases he with rfl | he
    · exact (List.chain'_cons.mp hc).1
    · exact closeWith_sub_edges (List.chain'_cons.mp hc).2
        (by rw [← List.getLast?_cons_cons]; exact hl) e he

/-- Walk predecessor edges backwards from the head of the path until a node
already on the path repeats; the segment between the two occurrences is a
cycle. This extracts the concrete cycle that nx.find_cycle reports on a
graph in which every node has an incoming edge. -/
def Graph.backWalk (g : Graph) : Nat → List Node → Option (List Node)
  | 0, _ => none
  | _+1, [] => none
  | fuel+1, cur :: rest =>
    match g.edges.find? (fun e => e.2 == cur) with
    | none => none
    | some e =>
      if e.1 ∈ cur :: rest then
        some (e.1 :: (cur :: rest).takeWhile (fun x => x ≠ e.1))
      else Graph.backWalk g fuel (e.1 :: cur :: rest)

/-- On a stalled graph (every node has an incoming edge), the backward walk
with enough fuel always returns a genuine simple cycle. -/
theorem Graph.backWalk_good {g : Graph} (hwf : g.WF)
    (hstall : g.peelStep = none) :
    ∀ (fuel : Nat) (path : List Node), path ≠ [] → path.Nodup →
      (∀ x ∈ path, x ∈ g.nodes) →
      List.Chain' (fun a b => (a, b) ∈ g.edges) path →
      g.nodes.length < fuel + path.length →
      ∃ ms, Graph.backWalk g fuel path = some ms ∧ g.IsCycleOf ms := by
  intro fuel
  induction fuel with
  | zero =>
    intro path hne hnd hsub _ hlen
    exfalso
    have := nodup_subset_length hnd (fun x hx => hsub x hx)
    omega
  | succ fuel ih =>
    intro path hne hnd hsub hchain hlen
    obtain ⟨cur, rest, rfl⟩ := List.exists_cons_of_ne_nil hne
    have hcur : cur ∈ g.nodes := hsub cur (by simp)
    obtain ⟨e0, he0, hcur0⟩ := Graph.peelStep_none hstall cur hcur
    obtain ⟨e, hfe⟩ : ∃ e, g.edges.find? (fun e => e.2 == cur) = some e := by
      cases hf : g.edges.find? (fun e => e.2 == cur) with
      | some e => exact ⟨e, rfl⟩
      | none =>
        exfalso
        have := List.find?_eq_none.mp hf e0 he0
        simp [hcur0] at this
    have heedge : e ∈ g.edges := List.mem_of_find?_eq_some hfe
    have he2 : e.2 = cur := by simpa using List.find?_some hfe
    unfold Graph.backWalk
    rw [hfe]
    dsimp only
    by_cases hmem : e.1 ∈ cur :: rest
    · rw [if_pos hmem]
      refine ⟨_, rfl, ?_⟩
      have hsegnd : ((cur :: rest).takeWhile (fun x => x ≠ e.1)).Nodup :=
        hnd.sublist (List.IsPrefix.sublist ( List.takeWhile_prefix _))
      have hnotin : e.1 ∉ (cur :: rest).takeWhile (fun x => x ≠ e.1) := by
        intro hx
        have := List.mem_takeWhile_imp hx
        simp at this
      refine ⟨by simp, List.nodup_cons.mpr ⟨hnotin, hsegnd⟩, ?_⟩
      cases hseg : (cur :: rest).takeWhile (fun x => x ≠ e.1) with
      | nil =>
        -- the head itself closes the cycle: a self loop on e.1
        have hcureq : cur = e.1 := by
          by_contra hne2
          simp [List.takeWhile_cons, hne2] at hseg
        intro e' he'
        have : e' = (e.1, e.1) := by
          simpa [cycEdges, closeWith] using he'
        subst this
        have : e = (e.1, e.1) := by
          have := he2
          rw [hcureq] at this
          exact Prod.ext rfl this
        rw [← this]
        exact heedge
      | cons s0 seg2 =>
        have hs0 : s0 = cur := by
          by_cases hne2 : cur = e.1
          · simp [List.takeWhile_cons, hne2] at hseg
          · simp [List.takeWhile_cons, hne2] at hseg
            exact hseg.1.symm
        subst hs0
        intro e' he'
        simp only [cycEdges, closeWith, List.mem_cons] at he'
        rcases he' with rfl | he'
        · have : e = (e.1, s0) := Prod.ext rfl he2
          rw [← this]
          exact heedge
        · -- edges inside the segment plus the closing edge
          have hchainseg : List.Chain' (fun a b => (a, b) ∈ g.edges)
              (s0 :: seg2) := by
            rw [← hseg]
            exact List.Chain'.prefix hchain ( List.takeWhile_prefix _)
          refine closeWith_sub_edges hchainseg ?_ e' he'
          intro x hx
          obtain ⟨dt, hdt⟩ := dropWhile_ne_self hmem
          have hsplit : (s0 :: rest) = (s0 :: seg2) ++ (e.1 :: dt) := by
            rw [← hseg, ← hdt, List.takeWhile_append_dropWhile]
          rw [hsplit] at hchain
          have := (List.chain'_append.mp hchain).2.2 x hx e.1 rfl
          exact this
    · rw [if_neg hmem]
      apply ih
      · simp
      · exact List.nodup_cons.mpr ⟨hmem, hnd⟩
      · intro x hx
        rcases List.mem_cons.mp hx with rfl | hx
        · exact (hwf.2.2 e heedge).1
        · exact hsub x hx
      · rw [List.chain'_cons']
        refine ⟨?_, hchain⟩
        intro y hy
        simp only [List.head?_cons, Option.mem_def, Option.some.injEq] at hy
        subst hy
        have : e = (e.1, cur) := Prod.ext rfl he2
        rw [← this]
        exact heedge
      · simp only [List.length_cons] at hlen ⊢
        omega

/-- Model of nx.find_cycle projected to the member list (the source builds a
Cycle from the returned edge list and only keeps the first endpoints). On an
acyclic graph it returns none, the NetworkXNoCycle exception of the source. -/
def Graph.find_cycle (g : Graph) : Option (List Node) :=
  match g.peelRest.nodes with
  | [] => none
  | n :: _ => g.peelRest.backWalk (g.peelRest.nodes.length + 1) [n]

theorem Graph.find_cycle_of_stalled {g : Graph} (hwf : g.WF)
    (hne : g.peelRest.nodes ≠ []) :
    ∃ ms, g.find_cycle = some ms ∧ g.peelRest.IsCycleOf ms := by
  obtain ⟨n, rest, hn⟩ := List.exists_cons_of_ne_nil hne
  have hstall : g.peelRest.peelStep = none := by
    rcases Graph.peelRest_stall g with h | h
    · exact absurd h hne
    · exact h
  have hwfr : g.peelRest.WF := Graph.peel_rest_WF hwf
  have hmem : n ∈ g.peelRest.nodes := by rw [hn]; simp
  obtain ⟨ms, hms, hgood⟩ := Graph.backWalk_good hwfr hstall
    (g.peelRest.nodes.length + 1) [n] (by simp) (by simp)
    (by intro x hx; simp at hx; subst hx; exact hmem) (by simp)
    (by simp; omega)
  refine ⟨ms, ?_, hgood⟩
  unfold Graph.find_cycle
  rw [hn] at hms ⊢
  dsimp only
  exact hms

theorem Graph.find_cycle_none_iff {g : Graph} (hwf : g.WF) :
    g.find_cycle = none ↔ g.peelRest.nodes = [] := by
  constructor
  · intro h
    by_contra hne
    obtain ⟨ms, hms, _⟩ := Graph.find_cycle_of_stalled hwf hne
    rw [h] at hms
    cases hms
  · intro h
    unfold Graph.find_cycle
    rw [h]

theorem Graph.find_cycle_some_good {g : Graph} {ms : List Node} (hwf : g.WF)
    (h : g.find_cycle = some ms) : g.IsCycleOf ms := by
  have hne : g.peelRest.nodes ≠ [] := by
    intro hnil
    unfold Graph.find_cycle at h
    rw [hnil] at h
    cases h
  obtain ⟨ms2, hms2, hgood⟩ := Graph.find_cycle_of_stalled hwf hne
  rw [h] at hms2
  cases hms2
  refine ⟨hgood.1, hgood.2.1, ?_⟩
  intro e he
  exact Graph.peel_rest_edges_subset _ _ (hgood.2.2 e he)

/-! ### extract_cycle -/

/-- An in-boundary edge: the source is outside the cycle members, the target
inside. -/
def inB (c : Node) (e : Node × Node) : Prop :=
  ¬ Node.memC e.1 c ∧ Node.memC e.2 c

/-- An out-boundary edge: the source is inside the cycle members, the target
outside. -/
def outB (c : Node) (e : Node × Node) : Prop :=
  Node.memC e.1 c ∧ ¬ Node.memC e.2 c

instance (c : Node) (e : Node × Node) : Decidable (inB c e) := by
  unfold inB; infer_instance

instance (c : Node) (e : Node × Node) : Decidable (outB c e) := by
  unfold outB; infer_instance

/-- The body of the rewiring loop of ImportGraph.extract_cycle, for one
snapshot edge: an in-boundary edge (k, v) is replaced by (k, cycle), an
out-boundary edge by (cycle, v), any other edge is left alone. -/
def Graph.rewireStep (c : Node) (g : Graph) (e : Node × Node) : Graph :=
  if inB c e then (g.remove_edge e.1 e.2).add_edge e.1 c
  else if outB c e then (g.remove_edge e.1 e.2).add_edge c e.2
  else g

/-- Removal of a list of nodes in order, as the final loop of
ImportGraph.extract_cycle does for the cycle members. -/
def Graph.removeNodes (g : Graph) (ns : List Node) : Graph :=
  ns.foldl Graph.remove_node g

/-- ImportGraph.extract_cycle from the source: add the cycle node, iterate
the rewiring over a snapshot of the edge list, then remove every member. -/
def Graph.extract_cycle (g : Graph) (c : Node) : Graph :=
  (((g.add_node c).edges.foldl (Graph.rewireStep c) (g.add_node c)).removeNodes
    c.members)

theorem Graph.add_node_of_mem {g : Graph} {n : Node} (h : n ∈ g.nodes) :
    g.add_node n = g := by
  unfold Graph.add_node
  rw [if_pos h]

theorem Graph.add_edge_nodes_of_mem {g : Graph} {u v : Node}
    (hu : u ∈ g.nodes) (hv : v ∈ g.nodes) : (g.add_edge u v).nodes = g.nodes := by
  unfold Graph.add_edge
  rw [Graph.add_node_of_mem hu, Graph.add_node_of_mem hv, Graph.insEdge_nodes]

theorem Graph.rewireStep_nodes {c : Node} {g : Graph} {e : Node × Node}
    (hc : c ∈ g.nodes) (h1 : e.1 ∈ g.nodes) (h2 : e.2 ∈ g.nodes) :
    (g.rewireStep c e).nodes = g.nodes := by
  unfold Graph.rewireStep
  split
  · rw [Graph.add_edge_nodes_of_mem, Graph.remove_edge_nodes]
    · rw [Graph.remove_edge_nodes]; exact h1
    · rw [Graph.remove_edge_nodes]; exact hc
  · split
    · rw [Graph.add_edge_nodes_of_mem, Graph.remove_edge_nodes]
      · rw [Graph.remove_edge_nodes]; exact hc
      · rw [Graph.remove_edge_nodes]; exact h2
    · rfl

theorem Graph.rewireStep_WF {c : Node} {g : Graph} {e : Node × Node}
    (h : g.WF) : (g.rewireStep c e).WF := by
  unfold Graph.rewireStep
  split
  · exact (h.remove_edge e.1 e.2).add_edge e.1 c
  · split
    · exact (h.remove_edge e.1 e.2).add_edge c e.2
    · exact h

theorem Graph.removeNodes_nodes_mem :
    ∀ (ns : List Node) (g : Graph) (x : Node),
      x ∈ (g.removeNodes ns).nodes ↔ x ∈ g.nodes ∧ x ∉ ns
  | [], g, x => by simp [Graph.removeNodes]
  | n :: t, g, x => by
    have := Graph.removeNodes_nodes_mem t (g.remove_node n) x
    unfold Graph.removeNodes at this ⊢
    simp only [List.foldl_cons, this, Graph.mem_remove_node_nodes,
      List.mem_cons]
    tauto

theorem Graph.removeNodes_edges_mem :
    ∀ (ns : List Node) (g : Graph) (e : Node × Node),
      e ∈ (g.removeNodes ns).edges ↔ e ∈ g.edges ∧ e.1 ∉ ns ∧ e.2 ∉ ns
  | [], g, e => by simp [Graph.removeNodes]
  | n :: t, g, e => by
    have := Graph.removeNodes_edges_mem t (g.remove_node n) e
    unfold Graph.removeNodes at this ⊢
    simp only [List.foldl_cons, this, Graph.mem_remove_node_edges,
      List.mem_cons]
    tauto

theorem Graph.removeNodes_WF :
    ∀ (ns : List Node) {g : Graph}, g.WF → (g.removeNodes ns).WF
  | [], g, h => h
  | n :: t, g, h => by
    unfold Graph.removeNodes
    simp only [List.foldl_cons]
    exact Graph.removeNodes_WF t (h.remove_node n)

/-- The edge set of the graph mid-rewiring, after the snapshot prefix done
has been processed: original edges not yet rewritten (or never boundary),
plus the images of the processed boundary edges. -/
def rewireP (g0 : Graph) (c : Node) (done : List (Node × Node))
    (x : Node × Node) : Prop :=
  (x ∈ g0.edges ∧ ¬((inB c x ∨ outB c x) ∧ x ∈ done)) ∨
  (∃ e ∈ done, inB c e ∧ x = (e.1, c)) ∨
  (∃ e ∈ done, outB c e ∧ x = (c, e.2))

theorem rewire_fold (g0 : Graph) (c : Node) (hwf0 : g0.WF)
    (hcne : ∀ e ∈ g0.edges, e.1 ≠ c ∧ e.2 ≠ c) :
    ∀ (todo done : List (Node × Node)) (h : Graph),
      g0.edges = done ++ todo →
      h.WF → h.nodes = (g0.add_node c).nodes →
      (∀ x, x ∈ h.edges ↔ rewireP g0 c done x) →
      ((todo.foldl (Graph.rewireStep c) h).WF ∧
       (todo.foldl (Graph.rewireStep c) h).nodes = (g0.add_node c).nodes ∧
       (∀ x, x ∈ (todo.foldl (Graph.rewireStep c) h).edges ↔
          rewireP g0 c (done ++ todo) x)) := by
  intro todo
  induction todo with
  | nil =>
    intro done h hsplit hWF hnodes hinv
    refine ⟨hWF, hnodes, ?_⟩
    simpa using hinv
  | cons e todo ih =>
    intro done h hsplit hWF hnodes hinv
    have heE : e ∈ g0.edges := by rw [hsplit]; simp
    have hene := hcne e heE
    have hc : c ∈ h.nodes := by
      rw [hnodes, Graph.mem_add_node_nodes]; right; rfl
    have he1 : e.1 ∈ h.nodes := by
      rw [hnodes, Graph.mem_add_node_nodes]; left; exact (hwf0.2.2 e heE).1
    have he2 : e.2 ∈ h.nodes := by
      rw [hnodes, Graph.mem_add_node_nodes]; left; exact (hwf0.2.2 e heE).2
    have hstep : ∀ x, x ∈ (h.rewireStep c e).edges ↔
        rewireP g0 c (done ++ [e]) x := by
      intro x
      unfold Graph.rewireStep
      by_cases hin : inB c e
      · rw [if_pos hin, Graph.mem_add_edge_edges, Graph.mem_remove_edge_edges]
        constructor
        · rintro (⟨hx, hxe⟩ | rfl)
          · rcases (hinv x).mp hx with ⟨hxE, hnd⟩ | ⟨e', he', hio', hxeq⟩ |
              ⟨e', he', hio', hxeq⟩
            · left
              refine ⟨hxE, ?_⟩
              rintro ⟨hio, hmem⟩
              rcases List.mem_append.mp hmem with hm | hm
              · exact hnd ⟨hio, hm⟩
              · rw [List.mem_singleton] at hm
                subst hm
                exact hxe (Prod.mk.eta).symm
            · exact Or.inr (Or.inl ⟨e', List.mem_append_left _ he', hio', hxeq⟩)
            · exact Or.inr (Or.inr ⟨e', List.mem_append_left _ he', hio', hxeq⟩)
          · exact Or.inr (Or.inl ⟨e, List.mem_append_right _ (by simp), hin, rfl⟩)
        · rintro (⟨hxE, hnd⟩ | ⟨e', he', hio', rfl⟩ | ⟨e', he', hio', rfl⟩)
          · left
            constructor
            · exact (hinv x).mpr (Or.inl ⟨hxE, fun hk =>
                hnd ⟨hk.1, List.mem_append_left _ hk.2⟩⟩)
            · intro hxe
              have hxE2 : x ∈ done ++ [e] := List.mem_append_right _ (by simp [hxe])
              have : inB c x := by rw [hxe] at *; exact hin
              exact hnd ⟨Or.inl this, hxE2⟩
          · rcases List.mem_append.mp he' with hm | hm
            · left
              refine ⟨(hinv _).mpr (Or.inr (Or.inl ⟨e', hm, hio', rfl⟩)), ?_⟩
              intro hxe
              have := congrArg Prod.snd hxe
              simp at this
              exact hene.2 this.symm
            · rw [List.mem_singleton] at hm
              subst hm
              exact Or.inr rfl
          · rcases List.mem_append.mp he' with hm | hm
            · left
              refine ⟨(hinv _).mpr (Or.inr (Or.inr ⟨e', hm, hio', rfl⟩)), ?_⟩
              intro hxe
              have := congrArg Prod.fst hxe
              simp at this
              exact hene.1 this.symm
            · rw [List.mem_singleton] at hm
              subst hm
              exact absurd hio'.1 (fun hk => hin.1 hk)
      · rw [if_neg hin]
        by_cases hout : outB c e
        · rw [if_pos hout, Graph.mem_add_edge_edges, Graph.mem_remove_edge_edges]
          constructor
          · rintro (⟨hx, hxe⟩ | rfl)
            · rcases (hinv x).mp hx with ⟨hxE, hnd⟩ | ⟨e', he', hio', hxeq⟩ |
                ⟨e', he', hio', hxeq⟩
              · left
                refine ⟨hxE, ?_⟩
                rintro ⟨hio, hmem⟩
                rcases List.mem_append.mp hmem with hm | hm
                · exact hnd ⟨hio, hm⟩
                · rw [List.mem_singleton] at hm
                  subst hm
                  exact hxe (Prod.mk.eta).symm
              · exact Or.inr (Or.inl ⟨e', List.mem_append_left _ he', hio', hxeq⟩)
              · exact Or.inr (Or.inr ⟨e', List.mem_append_left _ he', hio', hxeq⟩)
            · exact Or.inr (Or.inr ⟨e, List.mem_append_right _ (by simp), hout, rfl⟩)
          · rintro (⟨hxE, hnd⟩ | ⟨e', he', hio', rfl⟩ | ⟨e', he', hio', rfl⟩)
            · left
              constructor
              · exact (hinv x).mpr (Or.inl ⟨hxE, fun hk =>
                  hnd ⟨hk.1, List.mem_append_left _ hk.2⟩⟩)
              · intro hxe
                have hxE2 : x ∈ done ++ [e] :=
                  List.mem_append_right _ (by simp [hxe])
                have : outB c x := by rw [hxe] at *; exact hout
                exact hnd ⟨Or.inr this, hxE2⟩
            · rcases List.mem_append.mp he' with hm | hm
              · left
                refine ⟨(hinv _).mpr (Or.inr (Or.inl ⟨e', hm, hio', rfl⟩)), ?_⟩
                intro hxe
                have := congrArg Prod.snd hxe
                simp at this
                exact hene.2 this.symm
              · rw [List.mem_singleton] at hm
                subst hm
                exact absurd hio'.2 (fun hk => hout.2 hk)
            · rcases List.mem_append.mp he' with hm | hm
              · left
                refine ⟨(hinv _).mpr (Or.inr (Or.inr ⟨e', hm, hio', rfl⟩)), ?_⟩
                intro hxe
                have := congrArg Prod.fst hxe
                simp at this
                exact hene.1 this.symm
              · rw [List.mem_singleton] at hm
                subst hm
                exact Or.inr rfl
        · rw [if_neg hout]
          rw [hinv x]
          unfold rewireP
          constructor
          · rintro (⟨hxE, hnd⟩ | ⟨e', he', hio', hxeq⟩ | ⟨e', he', hio', hxeq⟩)
            · left
              refine ⟨hxE, ?_⟩
              rintro ⟨hio, hmem⟩
              rcases List.mem_append.mp hmem with hm | hm
              · exact hnd ⟨hio, hm⟩
              · rw [List.mem_singleton] at hm
                subst hm
                rcases hio with hio | hio
                · exact hin hio
                · exact hout hio
            · exact Or.inr (Or.inl ⟨e', List.mem_append_left _ he', hio', hxeq⟩)
            · exact Or.inr (Or.inr ⟨e', List.mem_append_left _ he', hio', hxeq⟩)
          · rintro (⟨hxE, hnd⟩ | ⟨e', he', hio', hxeq⟩ | ⟨e', he', hio', hxeq⟩)
            · exact Or.inl ⟨hxE, fun hk => hnd ⟨hk.1, List.mem_append_left _ hk.2⟩⟩
            · rcases List.mem_append.mp he' with hm | hm
              · exact Or.inr (Or.inl ⟨e', hm, hio', hxeq⟩)
              · rw [List.mem_singleton] at hm
                subst hm
                exact absurd hio' hin
            · rcases List.mem_append.mp he' with hm | hm
              · exact Or.inr (Or.inr ⟨e', hm, hio', hxeq⟩)
              · rw [List.mem_singleton] at hm
                subst hm
                exact absurd hio' hout
    have hnodes' : (h.rewireStep c e).nodes = (g0.add_node c).nodes := by
      rw [Graph.rewireStep_nodes hc he1 he2, hnodes]
    have hsplit' : g0.edges = (done ++ [e]) ++ todo := by
      rw [hsplit, List.append_assoc, List.singleton_append]
    have := ih (done ++ [e]) (h.rewireStep c e) hsplit'
      (Graph.rewireStep_WF hWF) hnodes' hstep
    simp only [List.foldl_cons]
    refine ⟨this.1, this.2.1, ?_⟩
    intro x
    rw [this.2.2 x]
    rw [List.append_assoc, List.singleton_append]

/-- No node is a direct member of itself (size argument); in particular a
fresh Cycle node never satisfies its own membership test. -/
theorem Node.not_mem_members : ∀ c : Node, c ∉ c.members
  | .file p => by simp [Node.members]
  | .cycle ns r => by
    intro h
    simp only [Node.members] at h
    have h1 : sizeOf (Node.cycle ns r) < sizeOf ns := List.sizeOf_lt_of_mem h
    have h2 : sizeOf ns < sizeOf (Node.cycle ns r) := by
      simp only [Node.cycle.sizeOf_spec]
      omega
    omega

theorem Graph.extract_cycle_spec {g : Graph} {c : Node} (hwf : g.WF)
    (hc : c ∉ g.nodes) :
    ((g.extract_cycle c).WF ∧
     (∀ x, x ∈ (g.extract_cycle c).nodes ↔
        (x ∈ g.nodes ∨ x = c) ∧ x ∉ c.members) ∧
     (∀ x : Node × Node, x ∈ (g.extract_cycle c).edges ↔
        ((x ∈ g.edges ∧ x.1 ∉ c.members ∧ x.2 ∉ c.members) ∨
         (x.2 = c ∧ x.1 ∉ c.members ∧
           ∃ v, (x.1, v) ∈ g.edges ∧ v ∈ c.members) ∨
         (x.1 = c ∧ x.2 ∉ c.members ∧
           ∃ k, (k, x.2) ∈ g.edges ∧ k ∈ c.members)))) := by
  have hcne : ∀ e ∈ g.edges, e.1 ≠ c ∧ e.2 ≠ c := by
    intro e he
    have := hwf.2.2 e he
    exact ⟨fun hx => hc (hx ▸ this.1), fun hx => hc (hx ▸ this.2)⟩
  have hinv0 : ∀ x, x ∈ (g.add_node c).edges ↔ rewireP g c [] x := by
    intro x
    rw [Graph.add_node_edges]
    unfold rewireP
    simp
  have hfold := rewire_fold g c hwf hcne (g.add_node c).edges [] (g.add_node c)
    (by rw [Graph.add_node_edges]; simp) (hwf.add_node c) rfl hinv0
  rw [Graph.add_node_edges] at hfold
  obtain ⟨hWF2, hnodes2, hedges2⟩ := hfold
  unfold Graph.extract_cycle
  rw [Graph.add_node_edges]
  refine ⟨Graph.removeNodes_WF _ hWF2, ?_, ?_⟩
  · intro x
    rw [Graph.removeNodes_nodes_mem, hnodes2, Graph.mem_add_node_nodes]
  · intro x
    rw [Graph.removeNodes_edges_mem, hedges2]
    simp only [List.nil_append]
    unfold rewireP inB outB Node.memC
    constructor
    · rintro ⟨h1 | h1 | h1, hx1, hx2⟩
      · exact Or.inl ⟨h1.1, hx1, hx2⟩
      · obtain ⟨e, he, hio, rfl⟩ := h1
        exact Or.inr (Or.inl ⟨rfl, hio.1, e.2, by simpa using he, hio.2⟩)
      · obtain ⟨e, he, hio, rfl⟩ := h1
        exact Or.inr (Or.inr ⟨rfl, hio.2, e.1, by simpa using he, hio.1⟩)
    · rintro (⟨hE, h1, h2⟩ | ⟨h2c, h1, v, hv, hvm⟩ | ⟨h1c, h2, k, hk, hkm⟩)
      · exact ⟨Or.inl ⟨hE, fun hk => hk.1.elim (fun h => h2 h.2)
          (fun h => h1 h.1)⟩, h1, h2⟩
      · refine ⟨Or.inr (Or.inl ⟨(x.1, v), hv, ⟨h1, hvm⟩, ?_⟩), h1, ?_⟩
        · exact Prod.ext rfl h2c
        · rw [h2c]; exact c.not_mem_members
      · refine ⟨Or.inr (Or.inr ⟨(k, x.2), hk, ⟨hkm, h2⟩, ?_⟩), ?_, h2⟩
        · exact Prod.ext h1c rfl
        · rw [h1c]; exact c.not_mem_members

/-- The termination measure of the collapsing loop: node count plus edge
count. -/
def Graph.gsize (g : Graph) : Nat := g.nodes.length + g.edges.length

/-- Extracting a genuine simple cycle strictly shrinks the graph: all the
internal cycle edges disappear while at most one node (the cycle node) is
added and every member node is removed. -/
theorem Graph.extract_cycle_gsize {g : Graph} {ms : List Node} {pfx : String}
    (hwf : g.WF) (hcyc : g.IsCycleOf ms)
    (hc : Node.cycle ms pfx ∉ g.nodes) :
    (g.extract_cycle (Node.cycle ms pfx)).gsize < g.gsize := by
  set c := Node.cycle ms pfx with hcdef
  have hmembers : c.members = ms := rfl
  obtain ⟨hWF', hnodes', hedges'⟩ := Graph.extract_cycle_spec hwf hc
  have hmsub : ∀ m ∈ ms, m ∈ g.nodes := hcyc.subset_nodes hwf
  have hm1 : 1 ≤ ms.length := by
    cases hms : ms with
    | nil => exact absurd hms hcyc.1
    | cons a t => simp
  -- node count
  have hnodesub : (g.extract_cycle c).nodes ⊆
      (g.nodes.filter (fun x => x ∉ ms)) ++ [c] := by
    intro x hx
    rw [hnodes' x, hmembers] at hx
    rcases hx.1 with h1 | h1
    · exact List.mem_append_left _ (List.mem_filter.mpr ⟨h1, by simp [hx.2]⟩)
    · exact List.mem_append_right _ (by simp [h1])
  have hnodelen : (g.extract_cycle c).nodes.length ≤
      (g.nodes.filter (fun x => x ∉ ms)).length + 1 := by
    have := nodup_subset_length hWF'.1 hnodesub
    simpa using this
  have hnodesplit : g.nodes.length =
      (g.nodes.filter (fun x => decide (x ∈ ms))).length +
      (g.nodes.filter (fun x => !(decide (x ∈ ms)))).length :=
    List.length_eq_length_filter_add _
  have hmemfilter : ms.length ≤
      (g.nodes.filter (fun x => decide (x ∈ ms))).length := by
    refine nodup_subset_length hcyc.2.1 ?_
    intro m hm
    exact List.mem_filter.mpr ⟨hmsub m hm, by simp [hm]⟩
  have hfiltereq : (g.nodes.filter (fun x => x ∉ ms)) =
      (g.nodes.filter (fun x => !(decide (x ∈ ms)))) := by
    apply List.filter_congr
    intro x _
    simp
  -- edge count
  have hedgesplit1 : g.edges.length =
      (g.edges.filter (fun e => decide (e.1 ∈ ms))).length +
      (g.edges.filter (fun e => !(decide (e.1 ∈ ms)))).length :=
    List.length_eq_length_filter_add _
  have hedgesplit2 :
      (g.edges.filter (fun e => decide (e.1 ∈ ms))).length =
      ((g.edges.filter (fun e => decide (e.1 ∈ ms))).filter
        (fun e => decide (e.2 ∈ ms))).length +
      ((g.edges.filter (fun e => decide (e.1 ∈ ms))).filter
        (fun e => !(decide (e.2 ∈ ms)))).length :=
    List.length_eq_length_filter_add _
  have hedgesplit3 :
      (g.edges.filter (fun e => !(decide (e.1 ∈ ms)))).length =
      ((g.edges.filter (fun e => !(decide (e.1 ∈ ms)))).filter
        (fun e => decide (e.2 ∈ ms))).length +
      ((g.edges.filter (fun e => !(decide (e.1 ∈ ms)))).filter
        (fun e => !(decide (e.2 ∈ ms)))).length :=
    List.length_eq_length_filter_add _
  -- the internal cycle edges all live in the both-endpoints-in part
  have hcycsub : ms.length ≤
      ((g.edges.filter (fun e => decide (e.1 ∈ ms))).filter
        (fun e => decide (e.2 ∈ ms))).length := by
    have hlen : (cycEdges ms).length = ms.length := by
      have := congrArg List.length (cycEdges_map_fst ms)
      simpa using this
    rw [← hlen]
    refine nodup_subset_length (cycEdges_nodup hcyc.2.1) ?_
    intro e he
    have hend := mem_cycEdges_endpoints he
    exact List.mem_filter.mpr ⟨List.mem_filter.mpr ⟨hcyc.2.2 e he,
      by simp [hend.1]⟩, by simp [hend.2]⟩
  -- the surviving edges embed into keep, in-images and out-images
  have hedgesub : (g.extract_cycle c).edges ⊆
      ((g.edges.filter (fun e => !(decide (e.1 ∈ ms)))).filter
        (fun e => !(decide (e.2 ∈ ms)))) ++
      (((g.edges.filter (fun e => !(decide (e.1 ∈ ms)))).filter
        (fun e => decide (e.2 ∈ ms))).map (fun e => (e.1, c)) ++
       ((g.edges.filter (fun e => decide (e.1 ∈ ms))).filter
        (fun e => !(decide (e.2 ∈ ms)))).map (fun e => (c, e.2))) := by
    intro x hx
    rw [hedges' x, hmembers] at hx
    rcases hx with ⟨hE, h1, h2⟩ | ⟨h2c, h1, v, hv, hvm⟩ | ⟨h1c, h2, k, hk, hkm⟩
    · exact List.mem_append_left _ (List.mem_filter.mpr
        ⟨List.mem_filter.mpr ⟨hE, by simp [h1]⟩, by simp [h2]⟩)
    · refine List.mem_append_right _ (List.mem_append_left _ ?_)
      refine List.mem_map.mpr ⟨(x.1, v), ?_, ?_⟩
      · exact List.mem_filter.mpr ⟨List.mem_filter.mpr ⟨hv, by simp [h1]⟩,
          by simp [hvm]⟩
      · exact Prod.ext rfl h2c.symm
    · refine List.mem_append_right _ (List.mem_append_right _ ?_)
      refine List.mem_map.mpr ⟨(k, x.2), ?_, ?_⟩
      · exact List.mem_filter.mpr ⟨List.mem_filter.mpr ⟨hk, by simp [hkm]⟩,
          by simp [h2]⟩
      · exact Prod.ext h1c.symm rfl
  have hedgelen := nodup_subset_length hWF'.2.1 hedgesub
  simp only [List.length_append, List.length_map] at hedgelen
  unfold Graph.gsize
  rw [hfiltereq] at hnodelen
  omega

theorem self_mem_subMembersL : ∀ (l : List Node), ∀ z ∈ l, z ∈ Node.subMembersL l
  | [], z, hz => absurd hz (List.not_mem_nil z)
  | a :: t, z, hz => by
    unfold Node.subMembersL
    rcases List.mem_cons.mp hz with rfl | hz
    · simp
    · simp only [List.mem_cons, List.mem_append]
      exact Or.inr (Or.inr (self_mem_subMembersL t z hz))

theorem mem_members_subMembers : ∀ (a : Node), ∀ z ∈ a.members, z ∈ a.subMembers
  | .file p, z, hz => by simp [Node.members] at hz
  | .cycle ns r, z, hz => by
    unfold Node.subMembers
    exact self_mem_subMembersL ns z hz

mutual

theorem members_sub_subMembers : ∀ (a : Node), ∀ x ∈ a.subMembers,
    ∀ z ∈ x.members, z ∈ a.subMembers
  | .file p => by simp [Node.subMembers]
  | .cycle ns r => by
    unfold Node.subMembers
    exact members_sub_subMembersL ns
termination_by structural a => a

theorem members_sub_subMembersL : ∀ (l : List Node), ∀ x ∈ Node.subMembersL l,
    ∀ z ∈ x.members, z ∈ Node.subMembersL l
  | [] => by simp [Node.subMembersL]
  | a :: t => by
    intro x hx z hz
    unfold Node.subMembersL at hx ⊢
    simp only [List.mem_cons, List.mem_append] at hx ⊢
    rcases hx with rfl | hx | hx
    · exact Or.inr (Or.inl (mem_members_subMembers x z hz))
    · exact Or.inr (Or.inl (members_sub_subMembers a x hx z hz))
    · exact Or.inr (Or.inr (members_sub_subMembersL t x hx z hz))
termination_by structural l => l

end

theorem mem_subMembersL_cases : ∀ (l : List Node), ∀ x ∈ Node.subMembersL l,
    x ∈ l ∨ ∃ m ∈ l, x ∈ m.subMembers
  | [], x, hx => by simp [Node.subMembersL] at hx
  | a :: t, x, hx => by
    unfold Node.subMembersL at hx
    simp only [List.mem_cons, List.mem_append] at hx
    rcases hx with rfl | hx | hx
    · exact Or.inl (by simp)
    · exact Or.inr ⟨a, by simp, hx⟩
    · rcases mem_subMembersL_cases t x hx with h | ⟨m, hm, hxm⟩
      · exact Or.inl (List.mem_cons_of_mem a h)
      · exact Or.inr ⟨m, List.mem_cons_of_mem a hm, hxm⟩

/-- The member-absence invariant of collapsing: whenever a node of the graph
is (or contains, recursively) a collapsed cycle, none of the absorbed member
nodes is still a node of the graph. Builder-produced graphs satisfy it
trivially since they contain file nodes only. -/
def Graph.Inv (g : Graph) : Prop :=
  ∀ x ∈ g.nodes, ∀ y ∈ x.subMembers, y ∉ g.nodes

instance (g : Graph) : Decidable g.Inv := by
  unfold Graph.Inv; infer_instance

/-- Under the invariant, a Cycle node built from current graph nodes is
fresh: it cannot already be a node of the graph. This models the object
freshness that Python gets from identity semantics. -/
theorem Graph.fresh_cycle {g : Graph} {ms : List Node} {pfx : String}
    (hinv : g.Inv) (hne : ms ≠ []) (hsub : ∀ m ∈ ms, m ∈ g.nodes) :
    Node.cycle ms pfx ∉ g.nodes := by
  intro hc
  obtain ⟨m, t, rfl⟩ := List.exists_cons_of_ne_nil hne
  have hm : m ∈ (Node.cycle (m :: t) pfx).subMembers := by
    unfold Node.subMembers
    exact self_mem_subMembersL _ m (by simp)
  exact hinv _ hc m hm (hsub m (by simp))

theorem Graph.extract_cycle_Inv {g : Graph} {ms : List Node} {pfx : String}
    (hwf : g.WF) (hinv : g.Inv) (hne : ms ≠ [])
    (hsub : ∀ m ∈ ms, m ∈ g.nodes)
    (hc : Node.cycle ms pfx ∉ g.nodes) :
    (g.extract_cycle (Node.cycle ms pfx)).Inv := by
  set c := Node.cycle ms pfx with hcdef
  obtain ⟨m0, t0, hms0⟩ := List.exists_cons_of_ne_nil hne
  have hm0 : m0 ∈ ms := by rw [hms0]; simp
  have hnodes' := (Graph.extract_cycle_spec hwf hc).2.1
  -- a node of the old graph can never contain the fresh cycle node
  have hkey : ∀ w, w ∈ g.nodes → c ∈ w.subMembers → False := by
    intro w hw hcw
    have : m0 ∈ w.subMembers := by
      have := members_sub_subMembers w c hcw
      exact this m0 hm0
    exact hinv w hw m0 this (hsub m0 hm0)
  intro x hx y hy
  rw [hnodes' x] at hx
  rw [hnodes' y]
  intro hy2
  have hymem : y ∉ c.members := fun hk => hy2.2 hk
  rcases hx.1 with hxg | hxc
  · -- an old node: its sub members were already absent
    have hyg : y ∉ g.nodes := hinv x hxg y hy
    rcases hy2.1 with h1 | h1
    · exact hyg h1
    · subst h1
      exact hkey x hxg hy
  · -- the fresh cycle node: its sub members are the absorbed members and
    -- their sub members
    subst hxc
    rcases mem_subMembersL_cases ms y hy with h1 | ⟨m, hm, hym⟩
    · exact hymem h1
    · have hyg : y ∉ g.nodes := hinv m (hsub m hm) y hym
      rcases hy2.1 with h2 | h2
      · exact hyg h2
      · subst h2
        exact hkey m (hsub m hm) hym

/-- The while loop of ImportGraph.collapse_cycles, with fuel: find a cycle,
extract it, repeat until no cycle is found. -/
def Graph.collapseLoop : Nat → String → Graph → Graph
  | 0, _, g => g
  | fuel+1, pfx, g =>
    match g.find_cycle with
    | none => g
    | some ms => Graph.collapseLoop fuel pfx (g.extract_cycle (Node.cycle ms pfx))

/-- With fuel exceeding the graph size, the collapsing loop reaches its
natural exit: no cycle is found in the result, and well-formedness and the
member-absence invariant are preserved. -/
theorem Graph.collapseLoop_fixpoint :
    ∀ {fuel : Nat} {pfx : String} {g : Graph}, g.WF → g.Inv →
      g.gsize < fuel →
      ((Graph.collapseLoop fuel pfx g).find_cycle = none ∧
       (Graph.collapseLoop fuel pfx g).WF ∧ (Graph.collapseLoop fuel pfx g).Inv) := by
  intro fuel
  induction fuel with
  | zero => intro pfx g _ _ hf; omega
  | succ fuel ih =>
    intro pfx g hwf hinv hf
    unfold Graph.collapseLoop
    cases hfc : g.find_cycle with
    | none => exact ⟨hfc, hwf, hinv⟩
    | some ms =>
      have hgood := Graph.find_cycle_some_good hwf hfc
      have hsub := hgood.subset_nodes hwf
      have hfresh : Node.cycle ms pfx ∉ g.nodes :=
        Graph.fresh_cycle hinv hgood.1 hsub
      have hwf' := (Graph.extract_cycle_spec hwf hfresh).1
      have hinv' := Graph.extract_cycle_Inv hwf hinv hgood.1 hsub hfresh
      have hsize := Graph.extract_cycle_gsize hwf hgood hfresh
      exact ih hwf' hinv' (by omega)

/-- Per-edge chaining around a recorded cycle produces a transitive path
from the first member back to itself. -/
theorem closeWith_transGen {R : Node → Node → Prop} (first : Node) :
    ∀ (x : Node) (t : List Node),
      (∀ e ∈ closeWith first (x :: t), R e.1 e.2) →
      Relation.TransGen R x first
  | x, [], h =>
      Relation.TransGen.single (h (x, first) (by simp [closeWith]))
  | x, y :: t, h =>
      Relation.TransGen.head (h (x, y) (by simp [closeWith]))
        (closeWith_transGen first y t (fun e he => h e (by
          simp only [closeWith, List.mem_cons]
          exact Or.inr he)))

theorem Graph.IsCycleOf.transGen {g : Graph} {ms : List Node}
    (h : g.IsCycleOf ms) : ∃ n, Relation.TransGen g.edgeRel n n := by
  obtain ⟨a, t, rfl⟩ := List.exists_cons_of_ne_nil h.1
  refine ⟨a, ?_⟩
  refine closeWith_transGen a a t ?_
  intro e he
  exact h.2.2 e he

/-- Semantic acyclicity forces the peel to empty the graph, hence the
topological sort to succeed. -/
theorem Graph.NoCycle_topological_sort {g : Graph} (hwf : g.WF)
    (hnc : g.NoCycle) : g.topological_sort = some g.peelOrder := by
  unfold Graph.topological_sort
  cases hrest : g.peelRest.nodes with
  | nil => rw [if_pos rfl]
  | cons n t =>
    exfalso
    have hne : g.peelRest.nodes ≠ [] := by rw [hrest]; simp
    obtain ⟨ms, _, hgood⟩ := Graph.find_cycle_of_stalled hwf hne
    have hgoodg : g.IsCycleOf ms :=
      ⟨hgood.1, hgood.2.1, fun e he =>
        Graph.peel_rest_edges_subset _ _ (hgood.2.2 e he)⟩
    obtain ⟨n0, hn0⟩ := hgoodg.transGen
    exact hnc n0 hn0

theorem Graph.find_cycle_none_NoCycle {g : Graph} (hwf : g.WF)
    (h : g.find_cycle = none) : g.NoCycle := by
  have hrest := (Graph.find_cycle_none_iff hwf).mp h
  have : g.topological_sort = some g.peelOrder := by
    unfold Graph.topological_sort
    rw [if_pos hrest]
  exact Graph.topological_sort_NoCycle hwf this

/-- Python str.endswith on the modelled strings. -/
def strEndsWith (s suf : String) : Bool := suf.data.isSuffixOf s.data

/-- The build unit a node contributes in ImportGraph.deps_list: the
recursively flattened member list for a Cycle node, a singleton for a file
whose name ends in .py, and nothing for any other file (the source comment:
we do not care about pyi deps). -/
def emitUnit : Node → Option (List Node)
  | .cycle ns r => some (Node.flatten_nodes (.cycle ns r))
  | .file p => if strEndsWith p ".py" then some [Node.file p] else none

/-- ImportGraph.deps_list: walk the topological order, emit each unit, and
return the reversed sequence, so that dependencies come first. None models
the topological sort raising on a graph that still has a cycle. -/
def Graph.deps_list (g : Graph) : Option (List (List Node)) :=
  (g.topological_sort).map (fun ord => (ord.filterMap emitUnit).reverse)

theorem Graph.NoCycle_peelRest {g : Graph} (hwf : g.WF) (hnc : g.NoCycle) :
    g.peelRest.nodes = [] := by
  cases hrest : g.peelRest.nodes with
  | nil => rfl
  | cons n t =>
    exfalso
    have hne : g.peelRest.nodes ≠ [] := by rw [hrest]; simp
    obtain ⟨ms, _, hgood⟩ := Graph.find_cycle_of_stalled hwf hne
    have hgoodg : g.IsCycleOf ms :=
      ⟨hgood.1, hgood.2.1, fun e he =>
        Graph.peel_rest_edges_subset _ _ (hgood.2.2 e he)⟩
    obtain ⟨n0, hn0⟩ := hgoodg.transGen
    exact hnc n0 hn0

theorem getElem?_append_mid {α : Type} (A B : List α) (x : α) :
    (A ++ x :: B)[A.length]? = some x := by
  induction A with
  | nil => simp
  | cons a A ih => simpa using ih

/-- The ordering guarantee of deps_list on an acyclic graph: for an edge
from dependent to dependency where both endpoints emit build units, the unit
of the dependency appears strictly before the unit of the dependent in the
output. -/
theorem Graph.deps_list_order {g : Graph} (hwf : g.WF) (hnc : g.NoCycle)
    {e : Node × Node} (he : e ∈ g.edges) {U V : List Node}
    (hU : emitUnit e.1 = some U) (hV : emitUnit e.2 = some V) :
    ∃ (out : List (List Node)) (i j : Nat), g.deps_list = some out ∧ i < j ∧
      out[i]? = some V ∧ out[j]? = some U := by
  have hrest : g.peelRest.nodes = [] := Graph.NoCycle_peelRest hwf hnc
  have htopo : g.topological_sort = some g.peelOrder := by
    unfold Graph.topological_sort
    rw [if_pos hrest]
  obtain ⟨l1, l2, l3, hsplit⟩ :=
    @Graph.peel_order_split g.nodes.length g hwf hrest e he
  have hout : g.deps_list = some ((g.peelOrder.filterMap emitUnit).reverse) := by
    unfold Graph.deps_list
    rw [htopo]
    rfl
  have hfm : g.peelOrder.filterMap emitUnit =
      (l1.filterMap emitUnit ++ U :: l2.filterMap emitUnit) ++
        V :: l3.filterMap emitUnit := by
    show (Graph.peel g.nodes.length g).1.filterMap emitUnit = _
    rw [hsplit]
    simp [List.filterMap_append, List.filterMap_cons, hU, hV]
  have hrev : (g.peelOrder.filterMap emitUnit).reverse =
      ((l3.filterMap emitUnit).reverse ++ V ::
        ((l2.filterMap emitUnit).reverse ++ U ::
          (l1.filterMap emitUnit).reverse)) := by
    rw [hfm]
    simp
  refine ⟨(g.peelOrder.filterMap emitUnit).reverse,
    (l3.filterMap emitUnit).reverse.length,
    (l3.filterMap emitUnit).reverse.length + 1 +
      (l2.filterMap emitUnit).reverse.length, hout, by omega, ?_, ?_⟩
  · rw [hrev]
    exact getElem?_append_mid _ _ V
  · rw [hrev]
    have hassoc : (l3.filterMap emitUnit).reverse ++ V ::
        ((l2.filterMap emitUnit).reverse ++ U ::
          (l1.filterMap emitUnit).reverse) =
        ((l3.filterMap emitUnit).reverse ++ V ::
          (l2.filterMap emitUnit).reverse) ++ U ::
          (l1.filterMap emitUnit).reverse := by
      simp
    rw [hassoc]
    have hlen : ((l3.filterMap emitUnit).reverse ++ V ::
        (l2.filterMap emitUnit).reverse).length =
        (l3.filterMap emitUnit).reverse.length + 1 +
          (l2.filterMap emitUnit).reverse.length := by
      simp
      omega
    rw [← hlen]
    exact getElem?_append_mid _ _ U

/-! ### The ImportGraph state and its methods

The external collaborators are parameters: scan_file is parsepy.scan_file,
resolve_import models resolve.Resolver.resolve_import with the working
directory self.path folded into the function and the ImportException
modelled as none, abspath is os.path.abspath and isdir is os.path.isdir. -/

/-- The ImportGraph object state: the source fields path,
typeshed_location, broken_deps (a defaultdict of sets, modelled as a
duplicate free list of file and specifier pairs), graph, and the lazily
cached root (None initially; note that Python treats a cached empty string
as unset because of falsiness). -/
structure ImportGraph where
  path : String
  typeshed_location : String
  broken_deps : List (String × String)
  graph : Graph
  root : Option String
  deriving DecidableEq, Repr

/-- A fresh ImportGraph, as built by ImportGraph.init. -/
def ImportGraph.init (path ts : String) : ImportGraph :=
  ⟨path, ts, [], Graph.empty, none⟩

/-- The loop body of ImportGraph.get_file_deps over the scanned imports:
resolve each one, collect the absolute paths of successful resolutions that
do not end in .so, and collect the specifiers whose resolution raised. -/
def scanResolve (resolveF : String → Option String) (abspath : String → String) :
    List String → List String × List String
  | [] => ([], [])
  | imp :: rest =>
    match resolveF imp with
    | some f =>
      if strEndsWith f ".so" then scanResolve resolveF abspath rest
      else (abspath f :: (scanResolve resolveF abspath rest).1,
            (scanResolve resolveF abspath rest).2)
    | none => ((scanResolve resolveF abspath rest).1,
               imp :: (scanResolve resolveF abspath rest).2)

section Builder

variable (scan_file : String → List String)
variable (resolve_import : String → String → Option String)
variable (abspath : String → String)

/-- ImportGraph.get_file_deps: scan a file and split the imports into
resolved dependency paths and unresolved specifiers. -/
def get_file_deps (filename : String) : List String × List String :=
  scanResolve (resolve_import filename) abspath (scan_file filename)

/-- Set insertion into the broken-dependency registry:
self.broken_deps[filename].add(imp). -/
def insertBroken (b : List (String × String)) (f imp : String) :
    List (String × String) :=
  if (f, imp) ∈ b then b else b ++ [(f, imp)]

/-- Record every unresolved specifier of a file. -/
def addBroken (b : List (String × String)) (filename : String) :
    List String → List (String × String)
  | [] => b
  | imp :: rest => addBroken (insertBroken b filename imp) filename rest

/-- The dependency loop of ImportGraph.add_file: add each resolved target
as a node and an edge from the scanned file to it. -/
def addDepEdges (filename : String) : Graph → List String → Graph
  | g, [] => g
  | g, f :: rest =>
      addDepEdges filename
        ((g.add_node (.file f)).add_edge (.file filename) (.file f)) rest

/-- ImportGraph.add_file from the source. -/
def ImportGraph.add_file (s : ImportGraph) (filename : String) : ImportGraph :=
  { s with
    graph := addDepEdges filename (s.graph.add_node (.file filename))
      (get_file_deps scan_file resolve_import abspath filename).1,
    broken_deps := addBroken s.broken_deps filename
      (get_file_deps scan_file resolve_import abspath filename).2 }

/-- The dependency loop of ImportGraph.add_file_recursive: for each resolved
target, enqueue it when it is a new .py file, then add the node and the
edge. The enqueue test reads the graph before the node is added, exactly as
the source does. -/
def processDeps (filename : String) :
    List String → List String → List String → Graph →
      List String × List String × Graph
  | [], queue, seen, g => (queue, seen, g)
  | f :: rest, queue, seen, g =>
    if Node.file f ∉ g.nodes ∧ f ∉ seen ∧ strEndsWith f ".py" then
      processDeps filename rest (queue ++ [f]) (seen ++ [f])
        ((g.add_node (.file f)).add_edge (.file filename) (.file f))
    else
      processDeps filename rest queue seen
        ((g.add_node (.file f)).add_edge (.file filename) (.file f))

/-- The worklist loop of ImportGraph.add_file_recursive, with fuel, also
returning the trace of dequeued files in order. -/
def afrGo : Nat → List String → List String → ImportGraph →
    ImportGraph × List String
  | 0, _, _, s => (s, [])
  | _+1, [], _, s => (s, [])
  | fuel+1, filename :: queue, seen, s =>
    ((afrGo fuel
        (processDeps filename
          (get_file_deps scan_file resolve_import abspath filename).1
          queue seen (s.graph.add_node (.file filename))).1
        (processDeps filename
          (get_file_deps scan_file resolve_import abspath filename).1
          queue seen (s.graph.add_node (.file filename))).2.1
        { s with
          graph := (processDeps filename
            (get_file_deps scan_file resolve_import abspath filename).1
            queue seen (s.graph.add_node (.file filename))).2.2,
          broken_deps := addBroken s.broken_deps filename
            (get_file_deps scan_file resolve_import abspath filename).2 }).1,
     filename ::
      (afrGo fuel
        (processDeps filename
          (get_file_deps scan_file resolve_import abspath filename).1
          queue seen (s.graph.add_node (.file filename))).1
        (processDeps filename
          (get_file_deps scan_file resolve_import abspath filename).1
          queue seen (s.graph.add_node (.file filename))).2.1
        { s with
          graph := (processDeps filename
            (get_file_deps scan_file resolve_import abspath filename).1
            queue seen (s.graph.add_node (.file filename))).2.2,
          broken_deps := addBroken s.broken_deps filename
            (get_file_deps scan_file resolve_import abspath filename).2 }).2)

/-- ImportGraph.add_file_recursive: worklist traversal from a seed file.
The fuel bounds the loop; the returned trace lists the dequeued files. -/
def ImportGraph.add_file_recursive (s : ImportGraph) (fuel : Nat)
    (filename : String) : ImportGraph × List String :=
  afrGo scan_file resolve_import abspath fuel [filename] [] s

end Builder

/-- Character-wise longest common prefix of two strings. -/
def lcpChars : List Char → List Char → List Char
  | a :: as, b :: bs => if a = b then a :: lcpChars as bs else []
  | _, _ => []

/-- os.path.commonprefix: the longest common string prefix of a list of
paths, the empty string for an empty list. -/
def commonPref : List String → String
  | [] => ""
  | s :: rest => rest.foldl (fun acc t => ⟨lcpChars acc.data t.data⟩) s

/-- posixpath.dirname: everything before the final slash, with trailing
slashes stripped unless the head consists only of slashes. -/
def dirname (p : String) : String :=
  let cs := p.data
  let k := (cs.reverse.takeWhile (fun ch => ch ≠ '/')).length
  if k = cs.length then ""
  else
    let head := cs.take (cs.length - k)
    if head.all (fun ch => ch = '/') then ⟨head⟩
    else ⟨(head.reverse.dropWhile (fun ch => ch = '/')).reverse⟩

/-- The path string of a node. The source only ever computes a root over
string (file) nodes; on a Cycle node Python would raise a TypeError inside
os.path.commonprefix, so the empty-string branch is never exercised by the
program. -/
def Node.pathStr : Node → String
  | .file p => p
  | .cycle _ _ => ""

section RootAndCollapse

variable (isdir : String → Bool)

/-- The root value ImportGraph.find_root computes on a miss: the common
prefix over the first endpoint of every edge, truncated to its parent
directory when it is not itself a directory. -/
def ImportGraph.computedRoot (s : ImportGraph) : String :=
  (fun pr => if isdir pr then pr else dirname pr)
    (commonPref ((s.graph.edges.map (fun e => e.1.pathStr)).dedup))

/-- ImportGraph.find_root: return the cached root unless recalculate is
passed or the cache is unset. The Python test is if recalculate or not
self.root, so a cached empty string counts as unset and is recomputed. -/
def ImportGraph.find_root (s : ImportGraph) (recalculate : Bool) :
    String × ImportGraph :=
  match s.root with
  | none => (s.computedRoot isdir, { s with root := some (s.computedRoot isdir) })
  | some r =>
    if recalculate || r == "" then
      (s.computedRoot isdir, { s with root := some (s.computedRoot isdir) })
    else (r, s)

/-- ImportGraph.collapse_cycles: compute and cache the display prefix, then
repeatedly find one cycle and extract it until none is found. The fuel,
one more than the graph size, is enough for the loop to reach its natural
exit. -/
def ImportGraph.collapse_cycles (s : ImportGraph) : ImportGraph :=
  { (s.find_root isdir false).2 with
    graph := Graph.collapseLoop ((s.find_root isdir false).2.graph.gsize + 1)
      (s.find_root isdir false).1 (s.find_root isdir false).2.graph }

end RootAndCollapse

theorem mem_scanResolve_fst {rf : String → Option String}
    {ab : String → String} :
    ∀ (l : List String) (d : String), d ∈ (scanResolve rf ab l).1 ↔
      ∃ imp ∈ l, ∃ f, rf imp = some f ∧ strEndsWith f ".so" = false ∧
        d = ab f := by
  intro l
  induction l with
  | nil => intro d; simp [scanResolve]
  | cons imp rest ih =>
    intro d
    unfold scanResolve
    cases hr : rf imp with
    | none =>
      simp only [ih d, List.mem_cons]
      constructor
      · rintro ⟨i, hi, f, hf⟩
        exact ⟨i, Or.inr hi, f, hf⟩
      · rintro ⟨i, rfl | hi, f, hf⟩
        · rw [hr] at hf; cases hf.1
        · exact ⟨i, hi, f, hf⟩
    | some f =>
      dsimp only
      by_cases hso : strEndsWith f ".so" = true
      · rw [if_pos hso]
        simp only [ih d, List.mem_cons]
        constructor
        · rintro ⟨i, hi, f2, hf⟩
          exact ⟨i, Or.inr hi, f2, hf⟩
        · rintro ⟨i, rfl | hi, f2, hf2⟩
          · rw [hr] at hf2
            cases hf2.1
            rw [hso] at hf2
            cases hf2.2.1
          · exact ⟨i, hi, f2, hf2⟩
      · rw [if_neg hso]
        simp only [List.mem_cons, ih d]
        constructor
        · rintro (rfl | ⟨i, hi, f2, hf⟩)
          · exact ⟨imp, Or.inl rfl, f, hr, by simpa using hso, rfl⟩
          · exact ⟨i, Or.inr hi, f2, hf⟩
        · rintro ⟨i, rfl | hi, f2, hf2⟩
          · rw [hr] at hf2
            cases hf2.1
            exact Or.inl hf2.2.2
          · exact Or.inr ⟨i, hi, f2, hf2⟩

theorem mem_scanResolve_snd {rf : String → Option String}
    {ab : String → String} :
    ∀ (l : List String) (u : String), u ∈ (scanResolve rf ab l).2 ↔
      u ∈ l ∧ rf u = none := by
  intro l
  induction l with
  | nil => intro u; simp [scanResolve]
  | cons imp rest ih =>
    intro u
    unfold scanResolve
    cases hr : rf imp with
    | none =>
      simp only [List.mem_cons, ih u]
      constructor
      · rintro (rfl | ⟨h1, h2⟩)
        · exact ⟨Or.inl rfl, hr⟩
        · exact ⟨Or.inr h1, h2⟩
      · rintro ⟨rfl | h1, h2⟩
        · exact Or.inl rfl
        · exact Or.inr ⟨h1, h2⟩
    | some f =>
      dsimp only
      by_cases hso : strEndsWith f ".so" = true
      · rw [if_pos hso]
        rw [ih u]
        simp only [List.mem_cons]
        constructor
        · rintro ⟨h1, h2⟩
          exact ⟨Or.inr h1, h2⟩
        · rintro ⟨rfl | h1, h2⟩
          · rw [hr] at h2; cases h2
          · exact ⟨h1, h2⟩
      · rw [if_neg hso]
        rw [ih u]
        simp only [List.mem_cons]
        constructor
        · rintro ⟨h1, h2⟩
          exact ⟨Or.inr h1, h2⟩
        · rintro ⟨rfl | h1, h2⟩
          · rw [hr] at h2; cases h2
          · exact ⟨h1, h2⟩

theorem mem_insertBroken {b : List (String × String)} {f imp : String}
    {p : String × String} :
    p ∈ insertBroken b f imp ↔ p ∈ b ∨ p = (f, imp) := by
  unfold insertBroken
  split <;> rename_i h
  · exact ⟨Or.inl, fun hp => hp.elim id (fun hp => hp ▸ h)⟩
  · simp

theorem mem_addBroken {f : String} :
    ∀ (imps : List String) (b : List (String × String)) (p : String × String),
      p ∈ addBroken b f imps ↔ p ∈ b ∨ ∃ imp ∈ imps, p = (f, imp)
  | [], b, p => by simp [addBroken]
  | imp :: rest, b, p => by
    unfold addBroken
    rw [mem_addBroken rest, mem_insertBroken]
    simp only [List.mem_cons]
    constructor
    · rintro ((h | h) | ⟨i, hi, h⟩)
      · exact Or.inl h
      · exact Or.inr ⟨imp, Or.inl rfl, h⟩
      · exact Or.inr ⟨i, Or.inr hi, h⟩
    · rintro (h | ⟨i, rfl | hi, h⟩)
      · exact Or.inl (Or.inl h)
      · exact Or.inl (Or.inr h)
      · exact Or.inr ⟨i, hi, h⟩

theorem processDeps_graph {fn : String} :
    ∀ (l queue seen : List String) (g : Graph),
      (processDeps fn l queue seen g).2.2 = addDepEdges fn g l
  | [], _, _, g => rfl
  | f :: rest, queue, seen, g => by
    unfold processDeps addDepEdges
    split
    · exact processDeps_graph rest _ _ _
    · exact processDeps_graph rest _ _ _

theorem addDepEdges_edges_iff {fn : String} :
    ∀ (l : List String) (g : Graph) (e : Node × Node),
      e ∈ (addDepEdges fn g l).edges ↔
        e ∈ g.edges ∨ ∃ f ∈ l, e = (Node.file fn, Node.file f)
  | [], g, e => by simp [addDepEdges]
  | f :: rest, g, e => by
    unfold addDepEdges
    rw [addDepEdges_edges_iff rest]
    rw [Graph.mem_add_edge_edges, Graph.add_node_edges]
    simp only [List.mem_cons]
    constructor
    · rintro ((h | h) | ⟨f2, hf2, h⟩)
      · exact Or.inl h
      · exact Or.inr ⟨f, Or.inl rfl, h⟩
      · exact Or.inr ⟨f2, Or.inr hf2, h⟩
    · rintro (h | ⟨f2, rfl | hf2, h⟩)
      · exact Or.inl (Or.inl h)
      · exact Or.inl (Or.inr h)
      · exact Or.inr ⟨f2, hf2, h⟩

theorem addDepEdges_nodes_iff {fn : String} :
    ∀ (l : List String) (g : Graph) (x : Node), Node.file fn ∈ g.nodes →
      (x ∈ (addDepEdges fn g l).nodes ↔
        x ∈ g.nodes ∨ ∃ f ∈ l, x = Node.file f)
  | [], g, x, hfn => by simp [addDepEdges]
  | f :: rest, g, x, hfn => by
    unfold addDepEdges
    rw [addDepEdges_nodes_iff rest _ _ (by
      rw [Graph.mem_add_edge_nodes, Graph.mem_add_node_nodes]
      exact Or.inl (Or.inl hfn))]
    rw [Graph.mem_add_edge_nodes, Graph.mem_add_node_nodes]
    simp only [List.mem_cons]
    constructor
    · rintro (((h | h) | h | h) | ⟨f2, hf2, h⟩)
      · exact Or.inl h
      · exact Or.inr ⟨f, Or.inl rfl, h⟩
      · exact Or.inl (h ▸ hfn)
      · exact Or.inr ⟨f, Or.inl rfl, h⟩
      · exact Or.inr ⟨f2, Or.inr hf2, h⟩
    · rintro (h | ⟨f2, rfl | hf2, h⟩)
      · exact Or.inl (Or.inl (Or.inl h))
      · exact Or.inl (Or.inl (Or.inr h))
      · exact Or.inr ⟨f2, hf2, h⟩

theorem processDeps_queue_seen {fn : String} :
    ∀ (l queue seen : List String) (g : Graph),
      ∃ extra : List String,
        (processDeps fn l queue seen g).1 = queue ++ extra ∧
        (processDeps fn l queue seen g).2.1 = seen ++ extra ∧
        extra.Nodup ∧
        ∀ x ∈ extra, strEndsWith x ".py" = true ∧ Node.file x ∉ g.nodes ∧
          x ∉ seen ∧ x ∈ l
  | [], queue, seen, g => ⟨[], by simp [processDeps]⟩
  | f :: rest, queue, seen, g => by
    unfold processDeps
    have hmono : ∀ x : Node, x ∈ g.nodes →
        x ∈ ((g.add_node (.file f)).add_edge (.file fn) (.file f)).nodes := by
      intro x hx
      rw [Graph.mem_add_edge_nodes, Graph.mem_add_node_nodes]
      exact Or.inl (Or.inl hx)
    split
    · rename_i hcond
      obtain ⟨extra, h1, h2, h3, h4⟩ := processDeps_queue_seen rest
        (queue ++ [f]) (seen ++ [f])
        ((g.add_node (.file f)).add_edge (.file fn) (.file f))
      refine ⟨f :: extra, ?_, ?_, ?_, ?_⟩
      · rw [h1]; simp
      · rw [h2]; simp
      · refine List.nodup_cons.mpr ⟨?_, h3⟩
        intro hf
        have := (h4 f hf).2.2.1
        simp at this
      · intro x hx
        rcases List.mem_cons.mp hx with rfl | hx
        · exact ⟨hcond.2.2, hcond.1, hcond.2.1, by simp⟩
        · have := h4 x hx
          refine ⟨this.1, fun hk => this.2.1 (hmono _ hk), ?_, by
            simp [this.2.2.2]⟩
          intro hk
          exact this.2.2.1 (by simp [hk])
    · obtain ⟨extra, h1, h2, h3, h4⟩ := processDeps_queue_seen rest
        queue seen ((g.add_node (.file f)).add_edge (.file fn) (.file f))
      refine ⟨extra, h1, h2, h3, ?_⟩
      intro x hx
      have := h4 x hx
      exact ⟨this.1, fun hk => this.2.1 (hmono _ hk), this.2.2.1,
        by simp [this.2.2.2]⟩

section BuilderLemmas

variable (scan_file : String → List String)
variable (resolve_import : String → String → Option String)
variable (abspath : String → String)

theorem afr_broken_mono :
    ∀ (fuel : Nat) (q seen : List String) (s : ImportGraph)
      (p : String × String), p ∈ s.broken_deps →
      p ∈ (afrGo scan_file resolve_import abspath fuel q seen s).1.broken_deps := by
  intro fuel
  induction fuel with
  | zero => intro q seen s p hp; exact hp
  | succ fuel ih =>
    intro q seen s p hp
    cases q with
    | nil => exact hp
    | cons fn rest =>
      unfold afrGo
      apply ih
      simp only
      rw [mem_addBroken]
      exact Or.inl hp

theorem afr_edges_mono :
    ∀ (fuel : Nat) (q seen : List String) (s : ImportGraph) (e : Node × Node),
      e ∈ s.graph.edges →
      e ∈ (afrGo scan_file resolve_import abspath fuel q seen s).1.graph.edges := by
  intro fuel
  induction fuel with
  | zero => intro q seen s e he; exact he
  | succ fuel ih =>
    intro q seen s e he
    cases q with
    | nil => exact he
    | cons fn rest =>
      unfold afrGo
      apply ih
      simp only
      rw [processDeps_graph, addDepEdges_edges_iff]
      rw [Graph.add_node_edges]
      exact Or.inl he

theorem afr_nodes_mono :
    ∀ (fuel : Nat) (q seen : List String) (s : ImportGraph) (x : Node),
      x ∈ s.graph.nodes →
      x ∈ (afrGo scan_file resolve_import abspath fuel q seen s).1.graph.nodes := by
  intro fuel
  induction fuel with
  | zero => intro q seen s x hx; exact hx
  | succ fuel ih =>
    intro q seen s x hx
    cases q with
    | nil => exact hx
    | cons fn rest =>
      unfold afrGo
      apply ih
      simp only
      rw [processDeps_graph, addDepEdges_nodes_iff _ _ _ (by
        rw [Graph.mem_add_node_nodes]; exact Or.inr rfl)]
      rw [Graph.mem_add_node_nodes]
      exact Or.inl (Or.inl hx)

/-- Every dequeued file has all its resolved dependencies recorded as edges
and all its unresolved specifiers recorded as broken dependencies in the
final state. -/
theorem afr_trace_effects :
    ∀ (fuel : Nat) (q seen : List String) (s : ImportGraph) (f : String),
      f ∈ (afrGo scan_file resolve_import abspath fuel q seen s).2 →
      (∀ d ∈ (get_file_deps scan_file resolve_import abspath f).1,
        (Node.file f, Node.file d) ∈
          (afrGo scan_file resolve_import abspath fuel q seen s).1.graph.edges) ∧
      (∀ imp ∈ (get_file_deps scan_file resolve_import abspath f).2,
        (f, imp) ∈
          (afrGo scan_file resolve_import abspath fuel q seen s).1.broken_deps) := by
  intro fuel
  induction fuel with
  | zero => intro q seen s f hf; cases hf
  | succ fuel ih =>
    intro q seen s f hf
    cases q with
    | nil => cases hf
    | cons fn rest =>
      unfold afrGo at hf ⊢
      simp only [List.mem_cons] at hf
      rcases hf with rfl | hf
      · -- the head file: its effects happen in this step and persist
        constructor
        · intro d hd
          apply afr_edges_mono
          simp only
          rw [processDeps_graph, addDepEdges_edges_iff]
          exact Or.inr ⟨d, hd, rfl⟩
        · intro imp himp
          apply afr_broken_mono
          simp only
          rw [mem_addBroken]
          exact Or.inr ⟨imp, himp, rfl⟩
      · exact ih _ _ _ f hf

/-- Every dequeued file is either the one passed in through the initial
queue or a source file by naming convention: only .py targets are ever
enqueued for expansion. -/
theorem afr_trace_src :
    ∀ (fuel : Nat) (q seen : List String) (s : ImportGraph) (f : String),
      f ∈ (afrGo scan_file resolve_import abspath fuel q seen s).2 →
      f ∈ q ∨ strEndsWith f ".py" = true := by
  intro fuel
  induction fuel with
  | zero => intro q seen s f hf; cases hf
  | succ fuel ih =>
    intro q seen s f hf
    cases q with
    | nil => cases hf
    | cons fn rest =>
      unfold afrGo at hf
      simp only [List.mem_cons] at hf
      rcases hf with rfl | hf
      · exact Or.inl (by simp)
      · rcases ih _ _ _ f hf with hq | hpy
        · obtain ⟨extra, h1, _, _, h4⟩ := @processDeps_queue_seen fn
            ((get_file_deps scan_file resolve_import abspath fn).1)
            rest seen (s.graph.add_node (.file fn))
          rw [h1] at hq
          rcases List.mem_append.mp hq with hq | hq
          · exact Or.inl (List.mem_cons_of_mem fn hq)
          · exact Or.inr (h4 f hq).1
        · exact Or.inr hpy

/-- A file that is already a node and not on the queue is never dequeued
later: together with queue uniqueness this makes every file scanned at most
once per traversal. -/
theorem afr_no_revisit :
    ∀ (fuel : Nat) (q seen : List String) (s : ImportGraph) (f : String),
      Node.file f ∈ s.graph.nodes → f ∉ q →
      f ∉ (afrGo scan_file resolve_import abspath fuel q seen s).2 := by
  intro fuel
  induction fuel with
  | zero => intro q seen s f _ _ hf; cases hf
  | succ fuel ih =>
    intro q seen s f hnode hq hf
    cases q with
    | nil => cases hf
    | cons fn rest =>
      unfold afrGo at hf
      simp only [List.mem_cons] at hf
      rcases hf with rfl | hf
      · exact hq (by simp)
      · obtain ⟨extra, h1, _, _, h4⟩ := @processDeps_queue_seen fn
          ((get_file_deps scan_file resolve_import abspath fn).1)
          rest seen (s.graph.add_node (.file fn))
        refine ih _ _ _ f ?_ ?_ hf
        · simp only
          rw [processDeps_graph, addDepEdges_nodes_iff _ _ _ (by
            rw [Graph.mem_add_node_nodes]; exact Or.inr rfl)]
          rw [Graph.mem_add_node_nodes]
          exact Or.inl (Or.inl hnode)
        · rw [h1]
          intro hk
          rcases List.mem_append.mp hk with hk | hk
          · exact hq (List.mem_cons_of_mem fn hk)
          · exact (h4 f hk).2.1 (by
              rw [Graph.mem_add_node_nodes]; exact Or.inl hnode)

/-- The trace of dequeued files never repeats a file. -/
theorem afr_trace_nodup :
    ∀ (fuel : Nat) (q seen : List String) (s : ImportGraph),
      q.Nodup → (∀ x ∈ q.tail, x ∈ seen) →
      (∀ x ∈ seen, Node.file x ∈ s.graph.nodes) →
      (afrGo scan_file resolve_import abspath fuel q seen s).2.Nodup := by
  intro fuel
  induction fuel with
  | zero => intro q seen s _ _ _; simp [afrGo]
  | succ fuel ih =>
    intro q seen s hnd htail hseen
    cases q with
    | nil => simp [afrGo]
    | cons fn rest =>
      unfold afrGo
      simp only [List.nodup_cons]
      obtain ⟨extra, h1, h2, h3, h4⟩ := @processDeps_queue_seen fn
        ((get_file_deps scan_file resolve_import abspath fn).1)
        rest seen (s.graph.add_node (.file fn))
      have hfn_node : Node.file fn ∈
          (processDeps fn
            (get_file_deps scan_file resolve_import abspath fn).1
            rest seen (s.graph.add_node (.file fn))).2.2.nodes := by
        rw [processDeps_graph, addDepEdges_nodes_iff _ _ _ (by
          rw [Graph.mem_add_node_nodes]; exact Or.inr rfl)]
        rw [Graph.mem_add_node_nodes]
        exact Or.inl (Or.inr rfl)
      have hseen_node : ∀ x ∈ (processDeps fn
          (get_file_deps scan_file resolve_import abspath fn).1
          rest seen (s.graph.add_node (.file fn))).2.1,
          Node.file x ∈ (processDeps fn
            (get_file_deps scan_file resolve_import abspath fn).1
            rest seen (s.graph.add_node (.file fn))).2.2.nodes := by
        intro x hx
        rw [h2] at hx
        rw [processDeps_graph, addDepEdges_nodes_iff _ _ _ (by
          rw [Graph.mem_add_node_nodes]; exact Or.inr rfl)]
        rcases List.mem_append.mp hx with hx | hx
        · rw [Graph.mem_add_node_nodes]
          exact Or.inl (Or.inl (hseen x hx))
        · exact Or.inr ⟨x, (h4 x hx).2.2.2, rfl⟩
      constructor
      · -- the dequeued head never comes back
        apply afr_no_revisit
        · exact hfn_node
        · rw [h1]
          intro hk
          rcases List.mem_append.mp hk with hk | hk
          · exact (List.nodup_cons.mp hnd).1 hk
          · exact (h4 fn hk).2.1 (by
              rw [Graph.mem_add_node_nodes]; exact Or.inr rfl)
      · -- the rest of the trace is duplicate free by induction
        apply ih
        · rw [h1]
          rw [List.nodup_append]
          refine ⟨(List.nodup_cons.mp hnd).2, h3, ?_⟩
          intro x hx hx2
          have := (h4 x hx2).2.2.1
          exact this (htail x hx)
        · rw [h1, h2]
          intro x hx
          rcases List.mem_append.mp (by
            have : (rest ++ extra).tail ⊆ rest ++ extra :=
              List.tail_subset _
            exact this hx) with hk | hk
          · exact List.mem_append_left _ (htail x hk)
          · exact List.mem_append_right _ hk
        · exact hseen_node

/-- Every edge of the final graph either was already present or records a
successfully resolved dependency of a dequeued file. -/
theorem afr_edges_origin :
    ∀ (fuel : Nat) (q seen : List String) (s : ImportGraph) (e : Node × Node),
      e ∈ (afrGo scan_file resolve_import abspath fuel q seen s).1.graph.edges →
      e ∈ s.graph.edges ∨
        ∃ f ∈ (afrGo scan_file resolve_import abspath fuel q seen s).2,
          ∃ d ∈ (get_file_deps scan_file resolve_import abspath f).1,
            e = (Node.file f, Node.file d) := by
  intro fuel
  induction fuel with
  | zero => intro q seen s e he; exact Or.inl he
  | succ fuel ih =>
    intro q seen s e he
    cases q with
    | nil => exact Or.inl he
    | cons fn rest =>
      unfold afrGo at he ⊢
      rcases ih _ _ _ e he with hold | ⟨f, hf, d, hd, rfl⟩
      · simp only at hold
        rw [processDeps_graph, addDepEdges_edges_iff, Graph.add_node_edges]
          at hold
        rcases hold with hold | ⟨d, hd, rfl⟩
        · exact Or.inl hold
        · exact Or.inr ⟨fn, by simp, d, hd, rfl⟩
      · exact Or.inr ⟨f, by simp [hf], d, hd, rfl⟩

end BuilderLemmas

theorem filter_isFile_cons_file (p : String) (L : List Node) :
    (Node.file p :: L).filter (fun x => x.isFile) =
      Node.file p :: L.filter (fun x => x.isFile) := rfl

theorem filter_isFile_cons_cycle (ns : List Node) (r : String) (L : List Node) :
    (Node.cycle ns r :: L).filter (fun x => x.isFile) =
      L.filter (fun x => x.isFile) := rfl

mutual

/-- Flattening a Cycle node keeps exactly the file nodes of its recursive
member sequence, in the recorded depth first order. -/
theorem flattenN_filter : ∀ (a : Node) (ns : List Node) (r : String),
    a = Node.cycle ns r →
    Node.flatten_nodes a = (Node.subMembersL ns).filter (fun x => x.isFile)
  | .file p, ns, r, h => by cases h
  | .cycle ns0 r0, ns, r, h => by
    injection h with h1 h2
    rw [← h1]
    show Node.flattenL ns0 = _
    exact flattenL_filter ns0
termination_by structural a => a

theorem flattenL_filter : ∀ l : List Node,
    Node.flattenL l = (Node.subMembersL l).filter (fun x => x.isFile)
  | [] => rfl
  | .file p :: t => by
    show Node.file p :: Node.flattenL t = _
    have hs : Node.subMembersL (.file p :: t) =
        .file p :: (Node.subMembers (.file p) ++ Node.subMembersL t) := rfl
    rw [hs]
    have hsub : Node.subMembers (.file p) = [] := rfl
    rw [hsub, List.nil_append, filter_isFile_cons_file]
    rw [flattenL_filter t]
  | .cycle ns r :: t => by
    show Node.flatten_nodes (.cycle ns r) ++ Node.flattenL t = _
    have hs : Node.subMembersL (.cycle ns r :: t) =
        .cycle ns r :: (Node.subMembersL ns ++ Node.subMembersL t) := rfl
    rw [hs, filter_isFile_cons_cycle, List.filter_append]
    rw [flattenN_filter (.cycle ns r) ns r rfl, flattenL_filter t]
termination_by structural l => l

end

theorem ImportGraph.find_root_state (isdir : String → Bool)
    (s : ImportGraph) (b : Bool) :
    (s.find_root isdir b).2.graph = s.graph ∧
    (s.find_root isdir b).2.broken_deps = s.broken_deps := by
  unfold ImportGraph.find_root
  cases s.root with
  | none => exact ⟨rfl, rfl⟩
  | some r =>
    dsimp only
    split
    · exact ⟨rfl, rfl⟩
    · exact ⟨rfl, rfl⟩

/-! ### Concrete fixtures used by the witnesses -/

def witIsdir : String → Bool := fun _ => false

def witG1 : Graph :=
  (Graph.empty.add_edge (.file "/a.py") (.file "/b.py")).add_edge
    (.file "/b.py") (.file "/a.py")

def witS1 : ImportGraph := ⟨"/", "/ts", [], witG1, none⟩

def witDag : Graph := Graph.empty.add_edge (.file "/a.py") (.file "/b.py")

def witScanSo : String → List String := fun s =>
  if s = "/a.py" then ["m"] else []

def witResSo : String → String → Option String := fun _ imp =>
  if imp = "m" then some "/b.so" else none

def witResPyi : String → String → Option String := fun _ imp =>
  if imp = "m" then some "/b.pyi" else none

def witScanMix : String → List String := fun s =>
  if s = "/a.py" then ["good", "missing"] else []

def witResMix : String → String → Option String := fun _ imp =>
  if imp = "good" then some "/c.py" else none

def witG6 : Graph :=
  (((Graph.empty.add_edge (.file "x") (.file "a")).add_edge
    (.file "a") (.file "b")).add_edge (.file "b") (.file "a")).add_edge
    (.file "b") (.file "y")

def witG7 : Graph := Graph.empty.add_edge (.file "/a.py") (.file "/b.pyi")

def witScan8 : String → List String := fun s =>
  if s = "/a.py" then ["m"] else if s = "/q.py" then ["m1", "m2"] else []

def witRes8a : String → String → Option String := fun _ _ => none

def witRes8b : String → String → Option String := fun _ imp =>
  if imp = "m1" then some "/x/a" else some "/x/c"

def witC8state : ImportGraph :=
  ((((ImportGraph.init "/" "/ts").add_file witScan8 witRes8a id
      "/a.py").find_root witIsdir false).2).add_file witScan8 witRes8b id
    "/q.py"

def witC8cached : ImportGraph := ⟨"/", "/ts", [], Graph.empty, some "/x"⟩

def witS9 : ImportGraph := ⟨"/", "/ts", [("/a.py", "x")], Graph.empty, none⟩

def witInner : Node := Node.cycle [.file "a", .file "b"] ""

def witG10 : Graph := Graph.empty.add_edge (.file "k") (.file "a")

/-! ### The claims -/

/-- C1: For every input graph, after collapse_cycles returns, the resulting
graph contains no cycle: the loop of finding one cycle and extracting it
terminates only when no cycle remains. Stated for every well formed graph
state satisfying the member-absence invariant (both hold for every graph the
program builds, and the invariant stands in for the object freshness Python
gets from identity semantics). -/
theorem claim_C1_collapse_acyclic (isdir : String → Bool) (s : ImportGraph)
    (hwf : s.graph.WF) (hinv : s.graph.Inv) :
    (s.collapse_cycles isdir).graph.NoCycle := by
  unfold ImportGraph.collapse_cycles
  have hg := (ImportGraph.find_root_state isdir s false).1
  show ((Graph.collapseLoop ((s.find_root isdir false).2.graph.gsize + 1)
    (s.find_root isdir false).1 (s.find_root isdir false).2.graph)).NoCycle
  rw [hg]
  have hfix := @Graph.collapseLoop_fixpoint (s.graph.gsize + 1)
    ((s.find_root isdir false).1) s.graph hwf hinv
    (Nat.lt_succ_self s.graph.gsize)
  exact Graph.find_cycle_none_NoCycle hfix.2.1 hfix.1

theorem claim_C1_witness :
    witS1.graph.WF ∧ witS1.graph.Inv ∧
      (witS1.collapse_cycles witIsdir).graph.NoCycle :=
  ⟨by decide, by decide,
    claim_C1_collapse_acyclic witIsdir witS1 (by decide) (by decide)⟩

/-- C2: For every acyclic graph and every surviving edge from dependent to
dependency whose endpoints both emit build units, the unit of the dependency
precedes the unit of the dependent in the sequence returned by deps_list:
the output lists dependencies first. -/
theorem claim_C2_deps_list_order (g : Graph) (hwf : g.WF) (hnc : g.NoCycle)
    (e : Node × Node) (he : e ∈ g.edges) (U V : List Node)
    (hU : emitUnit e.1 = some U) (hV : emitUnit e.2 = some V) :
    ∃ (out : List (List Node)) (i j : Nat), g.deps_list = some out ∧ i < j ∧
      out[i]? = some V ∧ out[j]? = some U :=
  Graph.deps_list_order hwf hnc he hU hV

theorem claim_C2_witness :
    witDag.WF ∧
    (Node.file "/a.py", Node.file "/b.py") ∈ witDag.edges ∧
    ∃ (out : List (List Node)) (i j : Nat), witDag.deps_list = some out ∧
      i < j ∧ out[i]? = some [Node.file "/b.py"] ∧
      out[j]? = some [Node.file "/a.py"] :=
  ⟨by decide, by decide,
    claim_C2_deps_list_order witDag (by decide)
      (Graph.find_cycle_none_NoCycle (by decide) (by decide))
      (Node.file "/a.py", Node.file "/b.py") (by decide)
      [Node.file "/a.py"] [Node.file "/b.py"] (by decide) (by decide)⟩

/-- C3: For every Cycle node, at any nesting depth of Cycle within Cycle,
flatten_nodes returns exactly the leaf file nodes of its recorded member
sequence, in the originally recorded depth first order: it equals the
recursive member sequence restricted to file nodes, every element is a
file node, and it is duplicate free whenever the leaf sequence is. -/
theorem claim_C3_flatten_exact (ns : List Node) (r : String) :
    Node.flatten_nodes (.cycle ns r) =
      ((Node.cycle ns r).subMembers).filter (fun x => x.isFile) ∧
    (∀ x ∈ Node.flatten_nodes (.cycle ns r), x.isFile = true) ∧
    ((((Node.cycle ns r).subMembers).filter (fun x => x.isFile)).Nodup →
      (Node.flatten_nodes (.cycle ns r)).Nodup) := by
  have h1 : Node.flatten_nodes (.cycle ns r) = Node.flattenL ns := rfl
  have h2 : (Node.cycle ns r).subMembers = Node.subMembersL ns := rfl
  refine ⟨by rw [h1, h2]; exact flattenL_filter ns, ?_, ?_⟩
  · intro x hx
    rw [h1, flattenL_filter ns] at hx
    exact (List.mem_filter.mp hx).2
  · intro hnd
    rw [h1, flattenL_filter ns]
    rw [h2] at hnd
    exact hnd

theorem claim_C3_witness :
    Node.flatten_nodes (.cycle [.file "a", .cycle [.file "b"] ""] "") =
      ((Node.cycle [.file "a", .cycle [.file "b"] ""] "").subMembers).filter
        (fun x => x.isFile) ∧
    (Node.flatten_nodes (.cycle [.file "a", .cycle [.file "b"] ""] "")).Nodup :=
  ⟨(claim_C3_flatten_exact [.file "a", .cycle [.file "b"] ""] "").1,
   (claim_C3_flatten_exact [.file "a", .cycle [.file "b"] ""] "").2.2
     (by decide)⟩

/-- C4, counterexample to the claim as stated: a successful resolution to a
compiled artifact (a path ending in .so) does NOT yield an edge - the
source drops such resolutions entirely in get_file_deps, so the graph after
the traversal has no edge to the artifact even though the resolver
succeeded on a dequeued file. -/
theorem claim_C4_counterexample :
    "/a.py" ∈ ((ImportGraph.init "/" "/ts").add_file_recursive witScanSo
      witResSo id 5 "/a.py").2 ∧
    "m" ∈ witScanSo "/a.py" ∧
    witResSo "/a.py" "m" = some "/b.so" ∧
    (Node.file "/a.py", Node.file "/b.so") ∉
      ((ImportGraph.init "/" "/ts").add_file_recursive witScanSo witResSo id
        5 "/a.py").1.graph.edges := by
  decide

/-- C4, amended: for every dequeued file and every specifier the resolver
resolves to a path NOT ending in .so, an edge from the file to the absolute
resolved path is added - including when the target is not a source file by
naming convention, such as a .pyi stub - and non-source targets are never
enqueued for further expansion: every dequeued file other than the seed
ends in .py. Resolutions ending in .so are discarded with no edge. -/
theorem claim_C4_amended (scan_file : String → List String)
    (resolve_import : String → String → Option String)
    (abspath : String → String) (fuel : Nat) (s : ImportGraph)
    (init f imp t : String)
    (hf : f ∈ (s.add_file_recursive scan_file resolve_import abspath fuel
      init).2)
    (himp : imp ∈ scan_file f)
    (hres : resolve_import f imp = some t)
    (hso : strEndsWith t ".so" = false) :
    (Node.file f, Node.file (abspath t)) ∈
      (s.add_file_recursive scan_file resolve_import abspath fuel
        init).1.graph.edges ∧
    ∀ f2 ∈ (s.add_file_recursive scan_file resolve_import abspath fuel
      init).2, f2 = init ∨ strEndsWith f2 ".py" = true := by
  unfold ImportGraph.add_file_recursive at hf ⊢
  constructor
  · refine (afr_trace_effects scan_file resolve_import abspath fuel
      [init] [] s f hf).1 (abspath t) ?_
    exact (mem_scanResolve_fst (scan_file f) (abspath t)).mpr
      ⟨imp, himp, t, hres, hso, rfl⟩
  · intro f2 hf2
    rcases afr_trace_src scan_file resolve_import abspath fuel
      [init] [] s f2 hf2 with hq | hpy
    · exact Or.inl (by simpa using hq)
    · exact Or.inr hpy

theorem claim_C4_witness :
    "/a.py" ∈ ((ImportGraph.init "/" "/ts").add_file_recursive witScanSo
      witResPyi id 5 "/a.py").2 ∧
    ((Node.file "/a.py", Node.file "/b.pyi") ∈
      ((ImportGraph.init "/" "/ts").add_file_recursive witScanSo witResPyi
        id 5 "/a.py").1.graph.edges ∧
     ∀ f2 ∈ ((ImportGraph.init "/" "/ts").add_file_recursive witScanSo
       witResPyi id 5 "/a.py").2, f2 = "/a.py" ∨
       strEndsWith f2 ".py" = true) :=
  ⟨by decide,
   claim_C4_amended witScanSo witResPyi id 5 (ImportGraph.init "/" "/ts")
     "/a.py" "/a.py" "m" "/b.pyi" (by decide) (by decide) (by decide)
     (by decide)⟩

/-- C5: for every dequeued file, each specifier whose resolution fails is
added to that file's broken-dependency set, every edge of the final graph
traces back to a successful resolution (so no edge is created for the
failure), and the remaining specifiers of the file are still processed:
all its resolved dependencies get edges regardless of the failure. -/
theorem claim_C5_broken_recorded (scan_file : String → List String)
    (resolve_import : String → String → Option String)
    (abspath : String → String) (fuel : Nat) (s : ImportGraph)
    (init f imp : String)
    (hf : f ∈ (s.add_file_recursive scan_file resolve_import abspath fuel
      init).2)
    (himp : imp ∈ scan_file f)
    (hres : resolve_import f imp = none) :
    (f, imp) ∈ (s.add_file_recursive scan_file resolve_import abspath fuel
      init).1.broken_deps ∧
    (∀ d ∈ (get_file_deps scan_file resolve_import abspath f).1,
      (Node.file f, Node.file d) ∈
        (s.add_file_recursive scan_file resolve_import abspath fuel
          init).1.graph.edges) ∧
    (∀ e ∈ (s.add_file_recursive scan_file resolve_import abspath fuel
        init).1.graph.edges,
      e ∈ s.graph.edges ∨
        ∃ f2 ∈ (s.add_file_recursive scan_file resolve_import abspath fuel
          init).2, ∃ imp2 t, imp2 ∈ scan_file f2 ∧
          resolve_import f2 imp2 = some t ∧ strEndsWith t ".so" = false ∧
          e = (Node.file f2, Node.file (abspath t))) := by
  unfold ImportGraph.add_file_recursive at hf ⊢
  refine ⟨?_, ?_, ?_⟩
  · refine (afr_trace_effects scan_file resolve_import abspath fuel
      [init] [] s f hf).2 imp ?_
    exact (mem_scanResolve_snd (scan_file f) imp).mpr ⟨himp, hres⟩
  · intro d hd
    exact (afr_trace_effects scan_file resolve_import abspath fuel
      [init] [] s f hf).1 d hd
  · intro e he
    rcases afr_edges_origin scan_file resolve_import abspath fuel
      [init] [] s e he with hold | ⟨f2, hf2, d, hd, rfl⟩
    · exact Or.inl hold
    · obtain ⟨imp2, himp2, t, hrt, hso, rfl⟩ :=
        (mem_scanResolve_fst (scan_file f2) d).mp hd
      exact Or.inr ⟨f2, hf2, imp2, t, himp2, hrt, hso, rfl⟩

theorem claim_C5_witness :
    "/a.py" ∈ ((ImportGraph.init "/" "/ts").add_file_recursive witScanMix
      witResMix id 5 "/a.py").2 ∧
    ("/a.py", "missing") ∈ ((ImportGraph.init "/" "/ts").add_file_recursive
      witScanMix witResMix id 5 "/a.py").1.broken_deps ∧
    (Node.file "/a.py", Node.file "/c.py") ∈
      ((ImportGraph.init "/" "/ts").add_file_recursive witScanMix witResMix
        id 5 "/a.py").1.graph.edges :=
  ⟨by decide,
   (claim_C5_broken_recorded witScanMix witResMix id 5
     (ImportGraph.init "/" "/ts") "/a.py" "/a.py" "missing" (by decide)
     (by decide) (by decide)).1,
   (claim_C5_broken_recorded witScanMix witResMix id 5
     (ImportGraph.init "/" "/ts") "/a.py" "/a.py" "missing" (by decide)
     (by decide) (by decide)).2.1 "/c.py" (by decide)⟩

/-- C6: extract_cycle rewires exactly the boundary edges: the new graph
keeps the Cycle as a single node, removes every member node, keeps exactly
the edges with both endpoints outside the members, turns every edge from an
outside node into a member into an edge to the Cycle, and every edge from a
member to an outside node into an edge from the Cycle; edges with both
endpoints inside are dropped. Freshness of the Cycle node is the hypothesis
that Python guarantees by object identity. -/
theorem claim_C6_extract_rewires (g : Graph) (ms : List Node) (pfx : String)
    (hwf : g.WF) (hc : Node.cycle ms pfx ∉ g.nodes) :
    (Node.cycle ms pfx ∈ (g.extract_cycle (Node.cycle ms pfx)).nodes ∧
     (∀ m ∈ ms, m ∉ (g.extract_cycle (Node.cycle ms pfx)).nodes) ∧
     (∀ x, x ∈ (g.extract_cycle (Node.cycle ms pfx)).nodes ↔
        (x ∈ g.nodes ∨ x = Node.cycle ms pfx) ∧ x ∉ ms) ∧
     (∀ e : Node × Node, e ∈ (g.extract_cycle (Node.cycle ms pfx)).edges ↔
        ((e ∈ g.edges ∧ e.1 ∉ ms ∧ e.2 ∉ ms) ∨
         (e.2 = Node.cycle ms pfx ∧ e.1 ∉ ms ∧
           ∃ v, (e.1, v) ∈ g.edges ∧ v ∈ ms) ∨
         (e.1 = Node.cycle ms pfx ∧ e.2 ∉ ms ∧
           ∃ k, (k, e.2) ∈ g.edges ∧ k ∈ ms)))) := by
  obtain ⟨hWF, hn, he⟩ := Graph.extract_cycle_spec hwf hc
  refine ⟨?_, ?_, hn, he⟩
  · exact (hn _).mpr ⟨Or.inr rfl, Node.not_mem_members _⟩
  · intro m hm hmem
    exact ((hn m).mp hmem).2 hm

theorem claim_C6_witness :
    (Node.cycle [.file "a", .file "b"] "") ∈
      (witG6.extract_cycle (Node.cycle [.file "a", .file "b"] "")).nodes ∧
    (Node.file "a") ∉
      (witG6.extract_cycle (Node.cycle [.file "a", .file "b"] "")).nodes ∧
    (Node.file "x", Node.cycle [.file "a", .file "b"] "") ∈
      (witG6.extract_cycle (Node.cycle [.file "a", .file "b"] "")).edges :=
  ⟨(claim_C6_extract_rewires witG6 [.file "a", .file "b"] "" (by decide)
      (by decide)).1,
   (claim_C6_extract_rewires witG6 [.file "a", .file "b"] "" (by decide)
      (by decide)).2.1 (.file "a") (by decide),
   ((claim_C6_extract_rewires witG6 [.file "a", .file "b"] "" (by decide)
      (by decide)).2.2.2 (Node.file "x", Node.cycle [.file "a", .file "b"] "")).mpr
     (Or.inr (Or.inl ⟨rfl, by decide, Node.file "a", by decide, by decide⟩))⟩

/-- C7: a non-source file node (path not ending in .py, not a Cycle)
participates in the topological ordering but is excluded from the build
units returned by deps_list: it appears in the computed order, yet no
emitted unit contains it. -/
theorem claim_C7_nonsource_excluded (g : Graph) (p : String)
    (hwf : g.WF) (hinv : g.Inv) (hnc : g.NoCycle)
    (hp : strEndsWith p ".py" = false) (hn : Node.file p ∈ g.nodes) :
    ∃ ord, g.topological_sort = some ord ∧ Node.file p ∈ ord ∧
    ∃ out, g.deps_list = some out ∧ ∀ u ∈ out, Node.file p ∉ u := by
  have hrest := Graph.NoCycle_peelRest hwf hnc
  have htopo : g.topological_sort = some g.peelOrder := by
    unfold Graph.topological_sort
    rw [if_pos hrest]
  refine ⟨g.peelOrder, htopo, ?_,
    (g.peelOrder.filterMap emitUnit).reverse, ?_, ?_⟩
  · rcases Graph.peel_covers g.nodes.length g (Node.file p) hn with h | h
    · exact h
    · exact absurd (hrest ▸ h) (List.not_mem_nil _)
  · unfold Graph.deps_list
    rw [htopo]
    rfl
  · intro u hu hpin
    rw [List.mem_reverse] at hu
    obtain ⟨x, hx, hex⟩ := List.mem_filterMap.mp hu
    have hxg : x ∈ g.nodes := Graph.peel_order_subset g.nodes.length g hx
    cases x with
    | file q =>
      by_cases hpy : strEndsWith q ".py" = true
      · have hq : emitUnit (Node.file q) = some [Node.file q] := by
          simp [emitUnit, hpy]
        rw [hq] at hex
        have hu := Option.some.inj hex
        subst hu
        have hpq : Node.file p = Node.file q := List.mem_singleton.mp hpin
        injection hpq with hpq2
        rw [← hpq2] at hpy
        rw [hpy] at hp
        cases hp
      · have hq : emitUnit (Node.file q) = none := by
          simp [emitUnit, hpy]
        rw [hq] at hex
        cases hex
    | cycle ns r =>
      have hq : emitUnit (Node.cycle ns r) =
          some (Node.flatten_nodes (.cycle ns r)) := rfl
      rw [hq] at hex
      have hu := Option.some.inj hex
      subst hu
      have h1 : Node.flatten_nodes (.cycle ns r) = Node.flattenL ns := rfl
      rw [h1, flattenL_filter ns] at hpin
      have hsub : Node.file p ∈ (Node.cycle ns r).subMembers :=
        (List.mem_filter.mp hpin).1
      exact hinv _ hxg _ hsub hn

theorem claim_C7_witness :
    ∃ ord, witG7.topological_sort = some ord ∧ Node.file "/b.pyi" ∈ ord ∧
    ∃ out, witG7.deps_list = some out ∧ ∀ u ∈ out, Node.file "/b.pyi" ∉ u :=
  claim_C7_nonsource_excluded witG7 "/b.pyi" (by decide) (by decide)
    (Graph.find_cycle_none_NoCycle (by decide) (by decide)) (by decide)
    (by decide)

/-- C8, counterexample to the claim as stated: a state whose root cache
holds the empty string (reachable by calling find_root on a graph with no
edges) is NOT treated as cached - find_root without the recalculate flag
recomputes and returns a different value, because the Python test if
recalculate or not self.root treats the empty string as unset. -/
theorem claim_C8_counterexample :
    witC8state.root = some "" ∧
    witC8state.find_root witIsdir false ≠ ("", witC8state) := by
  decide

/-- C8, amended: find_root returns the common string prefix over the first
endpoints of all edges, truncated to its parent directory when the prefix
is not itself a directory; the result is computed lazily, cached on the
instance, and recomputed when recalculate=True is passed OR when the cached
value is the empty string, which the Python falsiness test treats as
unset. -/
theorem claim_C8_amended (isdir : String → Bool) (s : ImportGraph) (b : Bool) :
    (∀ r, s.root = some r → r ≠ "" → b = false →
      s.find_root isdir b = (r, s)) ∧
    ((s.root = none ∨ s.root = some "" ∨ b = true) →
      s.find_root isdir b =
        (s.computedRoot isdir, { s with root := some (s.computedRoot isdir) })) ∧
    (s.computedRoot isdir =
      (if isdir (commonPref ((s.graph.edges.map (fun e => e.1.pathStr)).dedup))
       then commonPref ((s.graph.edges.map (fun e => e.1.pathStr)).dedup)
       else dirname (commonPref
         ((s.graph.edges.map (fun e => e.1.pathStr)).dedup)))) := by
  refine ⟨?_, ?_, rfl⟩
  · intro r hr hne hb
    subst hb
    unfold ImportGraph.find_root
    rw [hr]
    simp [hne]
  · intro h
    unfold ImportGraph.find_root
    rcases h with h | h | h
    · rw [h]
    · rw [h]
      simp
    · subst h
      cases s.root with
      | none => rfl
      | some r => simp

theorem claim_C8_witness :
    witC8cached.find_root witIsdir false = ("/x", witC8cached) :=
  (claim_C8_amended witIsdir witC8cached false).1 "/x" rfl (by decide) rfl

/-- C9: the broken-dependency registry grows monotonically: add_file and
add_file_recursive only ever add entries, collapse_cycles leaves the
registry unchanged (deps_list reads no state at all), and the worklist of
add_file_recursive dequeues every file at most once per traversal, so the
recorded set of a file reflects its single scan. -/
theorem claim_C9_broken_monotone (scan_file : String → List String)
    (resolve_import : String → String → Option String)
    (abspath : String → String) (isdir : String → Bool) (fuel : Nat)
    (s : ImportGraph) (fn init : String) :
    (∀ p ∈ s.broken_deps,
      p ∈ (s.add_file scan_file resolve_import abspath fn).broken_deps) ∧
    (∀ p ∈ s.broken_deps,
      p ∈ (s.add_file_recursive scan_file resolve_import abspath fuel
        init).1.broken_deps) ∧
    ((s.collapse_cycles isdir).broken_deps = s.broken_deps) ∧
    (s.add_file_recursive scan_file resolve_import abspath fuel
      init).2.Nodup := by
  refine ⟨?_, ?_, ?_, ?_⟩
  · intro p hp
    unfold ImportGraph.add_file
    show p ∈ addBroken s.broken_deps fn _
    rw [mem_addBroken]
    exact Or.inl hp
  · intro p hp
    unfold ImportGraph.add_file_recursive
    exact afr_broken_mono scan_file resolve_import abspath fuel
      [init] [] s p hp
  · show (s.find_root isdir false).2.broken_deps = s.broken_deps
    exact (ImportGraph.find_root_state isdir s false).2
  · unfold ImportGraph.add_file_recursive
    refine afr_trace_nodup scan_file resolve_import abspath fuel
      [init] [] s (by simp) ?_ ?_
    · intro x hx
      simp at hx
    · intro x hx
      simp at hx

theorem claim_C9_witness :
    ("/a.py", "x") ∈ (witS9.add_file witScanMix witResMix id
      "/f.py").broken_deps ∧
    ("/a.py", "x") ∈ ((witS9.add_file_recursive witScanMix witResMix id 5
      "/f.py").1).broken_deps ∧
    (witS9.collapse_cycles witIsdir).broken_deps = witS9.broken_deps ∧
    (witS9.add_file_recursive witScanMix witResMix id 5 "/f.py").2.Nodup :=
  ⟨(claim_C9_broken_monotone witScanMix witResMix id witIsdir 5 witS9
      "/f.py" "/f.py").1 _ (by decide),
   (claim_C9_broken_monotone witScanMix witResMix id witIsdir 5 witS9
      "/f.py" "/f.py").2.1 _ (by decide),
   (claim_C9_broken_monotone witScanMix witResMix id witIsdir 5 witS9
      "/f.py" "/f.py").2.2.1,
   (claim_C9_broken_monotone witScanMix witResMix id witIsdir 5 witS9
      "/f.py" "/f.py").2.2.2⟩

/-- C10: membership in a Cycle tests only the direct members: v is in the
cycle exactly when v equals one of the recorded member nodes; a leaf file
that lies only inside a nested inner Cycle member is not a member of the
outer Cycle, and extract_cycle rewires by top-level membership only, so an
edge to such a nested leaf from an outside node survives untouched. -/
theorem claim_C10_membership (g : Graph) (ms : List Node) (pfx : String)
    (v : Node) (hwf : g.WF) (hc : Node.cycle ms pfx ∉ g.nodes) :
    (Node.memC v (Node.cycle ms pfx) ↔ v ∈ ms) ∧
    (∀ inner ∈ ms, ∀ leaf ∈ inner.flatten_nodes, leaf ∉ ms →
      ¬ Node.memC leaf (Node.cycle ms pfx)) ∧
    (∀ k x : Node, (k, x) ∈ g.edges → k ∉ ms → x ∉ ms →
      (k, x) ∈ (g.extract_cycle (Node.cycle ms pfx)).edges) := by
  refine ⟨Iff.rfl, ?_, ?_⟩
  · intro inner _ leaf _ hnot hmem
    exact hnot hmem
  · intro k x hkx hk hx
    exact ((Graph.extract_cycle_spec hwf hc).2.2 (k, x)).mpr
      (Or.inl ⟨hkx, hk, hx⟩)

theorem claim_C10_witness :
    (Node.memC (Node.file "a") (Node.cycle [witInner, Node.file "c"] "") ↔
      Node.file "a" ∈ [witInner, Node.file "c"]) ∧
    ¬ Node.memC (Node.file "a") (Node.cycle [witInner, Node.file "c"] "") ∧
    (Node.file "k", Node.file "a") ∈
      (witG10.extract_cycle (Node.cycle [witInner, Node.file "c"] "")).edges :=
  ⟨(claim_C10_membership witG10 [witInner, .file "c"] "" (.file "a")
      (by decide) (by decide)).1,
   (claim_C10_membership witG10 [witInner, .file "c"] "" (.file "a")
      (by decide) (by decide)).2.1 witInner (by decide) (.file "a")
      (by decide) (by decide),
   (claim_C10_membership witG10 [witInner, .file "c"] "" (.file "a")
      (by decide) (by decide)).2.2 (.file "k") (.file "a") (by decide)
      (by decide) (by decide)⟩
